import Mathlib

set_option maxRecDepth 40000

/-!
Verification development for the hist-prototype versioned key-value store.

This file gives a shallow embedding of the Python sources under
src/hist_prototype/ (tree.py, leaf_node.py, intermediate_node.py,
searcher.py, types.py, storage_types.py, constants.py) and proves or
refutes the frozen claims about them.

Modelling conventions:
- Python bytes are modelled as List Nat; the comparison operators on
  Python bytes are lexicographic with a proper prefix smaller, which is
  exactly the LinearOrder on List Nat used here.
- Python ints are modelled as Int (transaction numbers can be compared
  against negative query values, as the tests do) or as Nat where the
  source only ever holds non-negative values (offsets, sizes, depths).
- Exceptions are modelled with Except: TErr collects the error kinds the
  embedded code can raise (NodeFullError, the duplicate-key ValueError,
  the RuntimeError for an impossible descent, AttributeError from a
  failed cast, IndexError from history[-1] on an empty list).  Unbounded
  Python loops and the unbounded recursion of BufferedBTree.put are
  modelled with an explicit fuel parameter; exhausted fuel is the
  distinct error fuelOut, so every definition is structurally recursive
  and evaluates inside the kernel.
- Mutation is modelled by state passing.  BufferedBTree.put mutates the
  nodes held in an explicit descent stack (node_stack) and
  split_nodes walks that same stack bottom-up; here the descent stack is
  the call stack of the path recursion putGo, whose result constructors
  carry exactly the information the Python code propagates upward:
  an updated child, the pending max_key widening loop of put (lines
  89-94 of tree.py, with its break flag), or a split sibling that
  split_nodes inserts into the parent.  The bookkeeping deques
  tree.leaf_nodes and tree.intermediate_nodes and the WriteRequest
  results that tree.put discards are not part of any claim and are not
  carried in the tree state (WriteRequest itself is modelled at the leaf
  level, where claim C6 needs it).
-/

namespace HistProto

/-- Python bytes. -/
abbrev Bytes := List Nat

namespace constants

/-- constants.py MAX_CHILDREN, used by types.py and storage_types.py. -/
def MAX_CHILDREN : Nat := 170

/-- constants.py MAX_VALUE_SIZE. -/
def MAX_VALUE_SIZE : Nat := 1024 * 1024

end constants

namespace leaf_node

/-- leaf_node.py MAX_CHILDREN, imported by intermediate_node.py; this is
the fan-out of the in-memory B-tree, distinct from constants.MAX_CHILDREN. -/
def MAX_CHILDREN : Nat := 16

/-- LeafNodeFlags.DELETED. -/
def DELETED : Nat := 1

/-- LeafNodeFlags.PERSIST_HISTORY. -/
def PERSIST_HISTORY : Nat := 2

/-- LeafNode.DEFAULT_FLAGS. -/
def DEFAULT_FLAGS : Nat := 0

end leaf_node

/-- leaf_node.py HistoryRecord: one past state of a key. -/
structure HistRec where
  tx : Int
  value : Option Bytes
  delete : Bool
deriving DecidableEq, Repr

/-- leaf_node.py WriteRequest (the record add_record returns). -/
structure WriteReq where
  offset : Option Nat
  delete : Bool
  value : Bytes
  tx : Int
deriving DecidableEq, Repr

/-- leaf_node.py LeafNode.  The Python lock is concurrency plumbing with no
effect on the sequential semantics and is omitted.  The offset attribute is
first created by add_record, hence an Option initialised to none. -/
structure Leaf where
  key : Bytes
  value : Option Bytes
  tx : Int
  flags : Nat
  delete : Bool
  history : List HistRec
  historyWriteIndex : Nat
  currentOffset : Nat
  historyOffset : Nat
  offset : Option Nat
deriving DecidableEq, Repr

/-- LeafNode.__init__ of leaf_node.py: flags are init_flags XOR DEFAULT_FLAGS,
delete starts False, offset is not yet set. -/
def mkLeaf (key : Bytes) (value : Option Bytes) (tx : Int) (initFlags : Nat)
    (history : List HistRec) (historyIdx : Nat) (currentOffset : Nat)
    (historyOffset : Nat) : Leaf :=
  { key := key, value := value, tx := tx,
    flags := Nat.xor initFlags leaf_node.DEFAULT_FLAGS,
    delete := false, history := history, historyWriteIndex := historyIdx,
    currentOffset := currentOffset, historyOffset := historyOffset,
    offset := none }

/-- LeafNode.add_record of leaf_node.py lines 112-125: append the previous
(current_tx, current_value) together with the delete flag OF THIS CALL to
history, then install the new current state; a delete forces the stored
value to None.  Returns the updated leaf and the WriteRequest built by
to_write_req(value). -/
def add_record (l : Leaf) (offset : Nat) (value : Option Bytes) (tx : Int)
    (delete : Bool) : Leaf × WriteReq :=
  let hist2 := l.history ++ [{ tx := l.tx, value := l.value, delete := delete }]
  let value2 := if delete then none else value
  let l2 : Leaf :=
    { l with history := hist2, tx := tx, delete := delete, value := value2,
             offset := some offset }
  (l2, { offset := some offset, delete := delete,
         value := value2.getD [], tx := tx })

/-- Result of LeafNode.as_of: a bytes value, Python None, or a ReadRequest
handed back to the caller. -/
inductive AsOfOut where
  | noneOut
  | someOut (v : Bytes)
  | reqOut (offset : Nat) (tx : Int)
deriving DecidableEq, Repr

/-- Conversion of an Optional[bytes] return value of as_of. -/
def optOut : Option Bytes → AsOfOut
  | none => .noneOut
  | some v => .someOut v

/-- Error kinds of the embedded code: NodeFullError, the ValueError for a
duplicate ordering key in insert, the RuntimeError for a missing child
during descent, the AttributeError of a failed cast, the IndexError of
history[-1] on an empty history, and exhausted fuel for the unbounded
Python loops. -/
inductive TErr where
  | nodeFull
  | dupKey
  | unreachable
  | castErr
  | idxErr
  | fuelOut
deriving DecidableEq, Repr

/-- LeafNode.as_of of leaf_node.py lines 133-159, translated line by line.
history[-1] on line 137 is evaluated before anything else and raises
IndexError when the history is empty.  The for-loop over history breaks at
the first record with record.tx > tx, setting index = i - 1; when i = 0
that is Python index -1, the LAST record; when the loop completes without
breaking, index stays 0 (the for-else only handles the empty history,
which cannot be reached here). -/
def as_of (l : Leaf) (tx : Int) : Except TErr AsOfOut :=
  match l.history.getLast? with
  | none => .error .idxErr
  | some lastRec =>
    if tx < lastRec.tx ∧ 0 < l.historyOffset then .ok (.reqOut l.historyOffset tx)
    else if tx > l.tx ∧ l.delete = false then .ok (optOut l.value)
    else if tx > l.tx ∧ l.delete = true then .ok .noneOut
    else
      let j : Nat :=
        match l.history.findIdx? (fun r => decide (r.tx > tx)) with
        | some 0 => l.history.length - 1
        | some (i+1) => i
        | none => 0
      match l.history.get? j with
      | none => .error .idxErr
      | some r => if r.tx > tx then .ok .noneOut else .ok (optOut r.value)

/-- intermediate_node.py BTreeNode: children of an IntermediateNode are
IntermediateNodes or LeafNodes, discriminated in the source by the depth
field and unchecked casts. -/
inductive BNode where
  | inner (maxKey : Bytes) (depth : Nat) (children : List BNode)
  | leaf (l : Leaf)
deriving Repr

/-- intermediate_node.py IntermediateNode as a record (children are
BNodes). -/
structure Inner where
  maxKey : Bytes
  depth : Nat
  children : List BNode
deriving Repr

/-- View an IntermediateNode as a child BNode. -/
def ofInner (n : Inner) : BNode := .inner n.maxKey n.depth n.children

/-- Ordering key of a child: max_key of an IntermediateNode, key of a
LeafNode.  The Python code accesses .max_key after a cast to
IntermediateNode and .key after a cast to LeafNode; under the depth
discipline each access hits the matching class, so the single total
accessor is faithful there (elsewhere Python would raise AttributeError;
those states are unreachable in every theorem below). -/
def okey : BNode → Bytes
  | .inner mk _ _ => mk
  | .leaf l => l.key

/-- Ordering key of the last child, children[-1] in the source; the
default is only taken for an empty list, on which Python would raise. -/
def okeyLast (cs : List BNode) : Bytes := okey (cs.getLastD (.inner [] 0 []))

/-- Replace child i, the pure image of mutating an aliased child. -/
def withChild (n : Inner) (i : Nat) (c : BNode) : Inner :=
  { n with children := n.children.set i c }

/-- search_intermediate_node of intermediate_node.py, depth == 1 branch:
scan the children in order; an exact key match returns that child (its
index here), a child with a greater key ends the scan with None. -/
def searchLeafIdx? (key : Bytes) : List BNode → Option Nat
  | [] => none
  | c :: cs =>
    if okey c = key then some 0
    else if key < okey c then none
    else (searchLeafIdx? key cs).map (· + 1)

/-- Leaf child at an index, used after searchLeafIdx? found one. -/
def leafAt? (cs : List BNode) (i : Nat) : Option Leaf :=
  match cs.get? i with
  | some (.leaf l) => some l
  | _ => none

/-- Child-insertion loop of insert_into_intermediate_node
(intermediate_node.py lines 62-76 and 80-89): walking the children in
order, an equal ordering key raises ValueError, a greater ordering key
means insert here, otherwise continue; reaching the end reports none so
the caller appends and updates max_key.  The depth == 1 and depth > 1
branches of the source are the same algorithm on .key resp. .max_key,
i.e. on okey. -/
def insLoop (c : BNode) : List BNode → Except TErr (Option (List BNode))
  | [] => .ok none
  | x :: xs =>
    if okey x = okey c then .error .dupKey
    else if okey c < okey x then .ok (some (c :: x :: xs))
    else do
      match ← insLoop c xs with
      | some ys => .ok (some (x :: ys))
      | none => .ok none

/-- insert_into_intermediate_node of intermediate_node.py: raise
NodeFullError when the node is full (len(children) >= MAX_CHILDREN),
otherwise insert keeping the order; appending at the end sets
max_key to the ordering key of the new child. -/
def insertNode (n : Inner) (c : BNode) : Except TErr Inner :=
  if leaf_node.MAX_CHILDREN ≤ n.children.length then .error .nodeFull
  else do
    match ← insLoop c n.children with
    | some ks => .ok { n with children := ks }
    | none => .ok { n with children := n.children ++ [c], maxKey := okey c }

/-- split_intermediate_node of intermediate_node.py: left half keeps the
first len/2 children, the right sibling takes the rest; both max_keys are
recomputed from their new last child. -/
def splitNode (n : Inner) : Inner × Inner :=
  let mid := n.children.length / 2
  let leftKids := n.children.take mid
  let rightKids := n.children.drop mid
  ({ maxKey := okeyLast leftKids, depth := n.depth, children := leftKids },
   { maxKey := okeyLast rightKids, depth := n.depth, children := rightKids })

/-- Result of one descent of BufferedBTree.put along the node_stack:
replaced means the key existed and add_record ran (tree.py lines 62-71);
noop means a delete of an absent key (lines 72-74); inserted carries the
break flag of the ancestor max_key widening loop (lines 88-94); the two
split constructors are the upward walk of split_nodes (lines 114-133)
after the insert raised NodeFullError: splitting propagates a split
sibling still to be inserted into the parent, splitDone means the walk
stopped at a non-full node and the rebuilt subtree only needs writing
back before put retries. -/
inductive PutRes where
  | replaced (n : Inner)
  | noop
  | inserted (n : Inner) (grow : Bool)
  | splitDone (n : Inner)
  | splitting (lft rgt : Inner)

/-- One attempt of BufferedBTree.put (tree.py lines 53-99) as a path
recursion over the descent stack.  At depth > 1 the child is chosen by
node_for_insert (first child with max_key >= key, else the last child;
empty children raise the RuntimeError of line 57; a leaf child would make
the next loop iteration fail like the failed cast).  At depth <= 1 the
node is searched for the key; on a hit add_record runs with the current
tree tx, on a miss a delete is a no-op and otherwise a fresh LeafNode is
inserted; NodeFullError from that insert starts split_nodes on this very
stack, which on the way up re-inserts each split sibling into the parent
and keeps splitting while the parent became full, exactly the source
recursion. -/
def childIdx (n : Inner) (key : Bytes) : Nat :=
  (n.children.findIdx? (fun c => decide (key ≤ okey c))).getD (n.children.length - 1)

def putGo (dfuel : Nat) (n : Inner) (key : Bytes) (vb : Option Bytes)
    (delete : Bool) (tx : Int) : Except TErr PutRes :=
  match dfuel with
  | 0 => .error .fuelOut
  | dfuel+1 =>
    if 1 < n.depth then
      if n.children.isEmpty then .error .unreachable
      else
        match n.children.get? (childIdx n key) with
        | some (.inner mk d kids) => do
          let res ← putGo dfuel { maxKey := mk, depth := d, children := kids }
            key vb delete tx
          match res with
          | .replaced c2 => .ok (.replaced (withChild n (childIdx n key) (ofInner c2)))
          | .noop => .ok .noop
          | .inserted c2 grow =>
            if grow ∧ (withChild n (childIdx n key) (ofInner c2)).maxKey < key then
              .ok (.inserted
                { withChild n (childIdx n key) (ofInner c2) with maxKey := key } true)
            else .ok (.inserted (withChild n (childIdx n key) (ofInner c2)) false)
          | .splitDone c2 => .ok (.splitDone (withChild n (childIdx n key) (ofInner c2)))
          | .splitting lft rgt =>
            match insertNode (withChild n (childIdx n key) (ofInner lft)) (ofInner rgt) with
            | .error e => .error e
            | .ok n1 =>
              if leaf_node.MAX_CHILDREN ≤ n1.children.length then
                .ok (.splitting (splitNode n1).1 (splitNode n1).2)
              else .ok (.splitDone n1)
        | some (.leaf _) => .error .castErr
        | none => .error .unreachable
    else
      match searchLeafIdx? key n.children with
      | some i =>
        match leafAt? n.children i with
        | some l =>
          .ok (.replaced (withChild n i (.leaf (add_record l 0 vb tx delete).1)))
        | none => .error .castErr
      | none =>
        if delete then .ok .noop
        else
          match insertNode n (.leaf (mkLeaf key vb tx leaf_node.PERSIST_HISTORY [] 0 0 0)) with
          | .ok n2 => .ok (.inserted n2 true)
          | .error .nodeFull =>
            if n.children.length < leaf_node.MAX_CHILDREN then .ok (.splitDone n)
            else .ok (.splitting (splitNode n).1 (splitNode n).2)
          | .error e => .error e

/-- tree.py BufferedBTree: the head IntermediateNode and the transaction
counter (tree.tx, started at tx_epoch). -/
structure Tree where
  head : Inner
  tx : Int
deriving Repr

/-- BufferedBTree.put of tree.py lines 46-99, with retry fuel for the
self.put(key, value) recursion of line 97.  A completed split walk either
installed a new root (split_nodes lines 122-131: children [old_parent,
new_node], depth one deeper, max_key from the new sibling) or rebuilt the
head, and then the put is retried with delete False, exactly as the
source retries with only (key, value).  The tx counter increments by one
on the replaced and inserted outcomes and is untouched by the split
walk. -/
def putFuel : Nat → Tree → Bytes → Option Bytes → Bool → Except TErr Tree
  | 0, _, _, _, _ => .error .fuelOut
  | rfuel+1, t, key, vb, delete => do
    let res ← putGo (t.head.depth + 1) t.head key vb delete t.tx
    match res with
    | .replaced h2 => .ok { head := h2, tx := t.tx + 1 }
    | .noop => .ok t
    | .inserted h2 _ => .ok { head := h2, tx := t.tx + 1 }
    | .splitDone h2 => putFuel rfuel { head := h2, tx := t.tx } key vb false
    | .splitting lft rgt =>
      putFuel rfuel
        { head := { maxKey := rgt.maxKey, depth := lft.depth + 1,
                    children := [ofInner lft, ofInner rgt] },
          tx := t.tx }
        key vb false

/-- BufferedBTree._get of tree.py lines 135-149: descend with search
(first child whose max_key >= key at depth > 1, None ends the lookup),
then scan the depth-1 node for the exact key. -/
def getGo (dfuel : Nat) (n : Inner) (key : Bytes) : Except TErr (Option Leaf) :=
  match dfuel with
  | 0 => .error .fuelOut
  | dfuel+1 =>
    if 1 < n.depth then
      if n.children.isEmpty then .ok none
      else
        match n.children.find? (fun c => decide (key ≤ okey c)) with
        | none => .ok none
        | some (.inner mk d kids) =>
          getGo dfuel { maxKey := mk, depth := d, children := kids } key
        | some (.leaf _) => .error .castErr
    else
      match searchLeafIdx? key n.children with
      | some i => .ok (leafAt? n.children i)
      | none => .ok none

/-- BufferedBTree.get of tree.py lines 151-155: the current value of the
leaf, None when the leaf is missing (a deleted leaf also holds None). -/
def getT (t : Tree) (key : Bytes) : Except TErr (Option Bytes) :=
  (getGo (t.head.depth + 1) t.head key).map (fun ol => ol.bind (fun l => l.value))

/-- BufferedBTree.as_of of tree.py lines 104-112: locate the leaf with
_get and delegate to LeafNode.as_of; an IndexError from the leaf
propagates.  The isinstance check of line 109 compares against
types.HistoryReadRequest while the leaf returns leaf_node.ReadRequest, so
a read request is passed through as an ordinary result. -/
def treeAsOf (t : Tree) (key : Bytes) (tx : Int) : Except TErr AsOfOut :=
  match getGo (t.head.depth + 1) t.head key with
  | .error e => .error e
  | .ok none => .ok .noneOut
  | .ok (some l) => as_of l tx

/-- Public state-changing operations of the library surface: put(key,
value) and delete(key) (tree.py line 101: delete is put with value None
and delete True).  get and as_of do not change state. -/
inductive Op where
  | put (k : Bytes) (v : Bytes)
  | del (k : Bytes)
deriving DecidableEq, Repr

/-- Apply one public operation. -/
def applyOp (fuel : Nat) (t : Tree) : Op → Except TErr Tree
  | .put k v => putFuel fuel t k (some v) false
  | .del k => putFuel fuel t k none true

/-- Run a sequence of public operations. -/
def runOps (fuel : Nat) (t : Tree) : List Op → Except TErr Tree
  | [] => .ok t
  | op :: ops => do runOps fuel (← applyOp fuel t op) ops

/-- BufferedBTree.__init__ with no nodes: the intermediate set receives
IntermediateNode(max_key=b"", children=[]) (depth defaults to 1) and the
tx counter starts at tx_epoch. -/
def emptyTree (epoch : Int) : Tree :=
  { head := { maxKey := [], depth := 1, children := [] }, tx := epoch }


/-! Binary record codecs (types.py, storage_types.py) and the history
searcher (searcher.py). -/

/-- Python int.to_bytes(w, "little", signed=False): w little-endian
bytes; OverflowError (modelled as none) when the value does not fit. -/
def toBytesLE (v w : Nat) : Option Bytes :=
  if v < 256 ^ w then some ((List.range w).map (fun i => v / 256 ^ i % 256))
  else none

/-- Python bytearray slice assignment buf[s:e] = xs for 0 <= s <= e: the
slice is replaced by xs, growing or shrinking the buffer; out-of-range
bounds clamp.  Only used with s <= e, as in the source. -/
def pySetSlice (buf : Bytes) (s e : Nat) (xs : Bytes) : Bytes :=
  buf.take s ++ xs ++ buf.drop e

/-- Sequential fixed-stride writes buf[o:o+w] = chunk for o = s, s+w, ...
mirroring the enumerate loops of both serializers. -/
def writeSeq (w : Nat) : Bytes → Nat → List Bytes → Bytes
  | buf, _, [] => buf
  | buf, s, xs :: rest => writeSeq w (pySetSlice buf s (s + w) xs) (s + w) rest

namespace types

/-- types.py VALUE_SIZE. -/
def VALUE_SIZE : Nat := 12

/-- types.py CHILD_SIZE. -/
def CHILD_SIZE : Nat := 16 + VALUE_SIZE

/-- types.py HistoryReadRequest. -/
structure HistoryReadRequest where
  offset : Nat
  tx : Int
  value_size : Nat
deriving DecidableEq, Repr

/-- types.py HistoryReadRequest.SIZE = ((16 + 8) * MAX_CHILDREN) + 2,
the byte count the history searcher reads per node. -/
def HistoryReadRequest.SIZE : Nat := (16 + 8) * constants.MAX_CHILDREN + 2

/-- types.py HistoryIndexNode: children are (tx, value) pairs, the value
being a raw VALUE_SIZE byte field. -/
structure HistoryIndexNode where
  depth : Nat
  children : List (Nat × Bytes)
deriving DecidableEq, Repr

/-- The __post_init__ validation of types.HistoryIndexNode together with
the ranges int.to_bytes needs during serialize. -/
def validHIN (n : HistoryIndexNode) : Prop :=
  n.children.length = constants.MAX_CHILDREN
  ∧ n.depth < 256 ^ 2
  ∧ ∀ c ∈ n.children, c.1 < 256 ^ 16 ∧ c.2.length = VALUE_SIZE

/-- Per-child byte chunks tx.to_bytes(16, "little") + child[1] of
HistoryIndexNode.serialize. -/
def hinChunks : List (Nat × Bytes) → Option (List Bytes)
  | [] => some []
  | c :: cs => do
    let txb ← toBytesLE c.1 16
    let rest ← hinChunks cs
    pure ((txb ++ c.2) :: rest)

/-- types.py HistoryIndexNode.serialize (lines 101-108): a bytearray of
((16 + 8) * MAX_CHILDREN) + 2 zero bytes receives the 2 depth bytes at
[0:2] and then each child chunk at [o:o+CHILD_SIZE] with o = i *
CHILD_SIZE + 2; since CHILD_SIZE is 28 while the allocation assumed 24
per child, the trailing writes extend the buffer. -/
def HistoryIndexNode.serialize (n : HistoryIndexNode) : Option Bytes := do
  let d ← toBytesLE n.depth 2
  let chunks ← hinChunks n.children
  pure (writeSeq CHILD_SIZE
    (pySetSlice (List.replicate ((16 + 8) * constants.MAX_CHILDREN + 2) 0) 0 2 d)
    2 chunks)

end types

namespace storage_types

/-- storage_types.py CHILD_TUPLE_SIZE = 1 + 16 + 8 + 8. -/
def CHILD_TUPLE_SIZE : Nat := 1 + 16 + 8 + 8

/-- storage_types.py HistoryIndexEntry: children are (flags, tx, offset
or value, length or value) tuples. -/
structure HistoryIndexEntry where
  offset : Nat
  depth : Nat
  children : List (Nat × Nat × Nat × Nat)
deriving DecidableEq, Repr

/-- storage_types.py HistoryIndexEntry.SIZE = CHILD_TUPLE_SIZE *
MAX_CHILDREN + 2. -/
def HistoryIndexEntry.SIZE : Nat := CHILD_TUPLE_SIZE * constants.MAX_CHILDREN + 2

/-- The __post_init__ validation of HistoryIndexEntry together with the
ranges int.to_bytes needs during serialize (depth.to_bytes(1) bounds the
depth by 256). -/
def validHIE (e : HistoryIndexEntry) : Prop :=
  e.children.length = constants.MAX_CHILDREN
  ∧ e.depth < 256
  ∧ ∀ c ∈ e.children,
      c.1 < 256 ∧ c.2.1 < 256 ^ 16 ∧ c.2.2.1 < 256 ^ 8 ∧ c.2.2.2 < 256 ^ 8

/-- Per-child 33-byte chunks of HistoryIndexEntry.serialize. -/
def hieChunks : List (Nat × Nat × Nat × Nat) → Option (List Bytes)
  | [] => some []
  | c :: cs => do
    let fb ← toBytesLE c.1 1
    let txb ← toBytesLE c.2.1 16
    let ob ← toBytesLE c.2.2.1 8
    let lb ← toBytesLE c.2.2.2 8
    let rest ← hieChunks cs
    pure ((fb ++ txb ++ ob ++ lb) :: rest)

/-- storage_types.py HistoryIndexEntry.serialize (lines 76-87): a
bytearray of SIZE zero bytes; buf[0:2] receives depth.to_bytes(1) - one
byte replacing a two-byte slice, shrinking the buffer by one - and then
each 33-byte chunk lands at [of:of+CHILD_TUPLE_SIZE] with of = i *
CHILD_TUPLE_SIZE + 2, the last write growing the buffer back to SIZE. -/
def HistoryIndexEntry.serialize (e : HistoryIndexEntry) : Option Bytes := do
  let d ← toBytesLE e.depth 1
  let chunks ← hieChunks e.children
  pure (writeSeq CHILD_TUPLE_SIZE
    (pySetSlice (List.replicate HistoryIndexEntry.SIZE 0) 0 2 d)
    2 chunks)

end storage_types

/-- Abstraction of one io.read of HistoryReadRequest.SIZE bytes followed
by HistoryIndexNode.deserialize, as performed by HistorySearcher.search.
atOffset serves the initial read at request.offset; atChild serves the
reads that follow a child, where the code passes the raw 12-byte value
field child[1] as the offset (searcher.py line 23).  Abstracting the IO
pair as a total store keeps the loop semantics the claims speak about
(the underlying IOHandler.read call as written would not even accept two
arguments, an orthogonal defect). -/
structure HistStore where
  atOffset : Nat → types.HistoryIndexNode
  atChild : Bytes → types.HistoryIndexNode

/-- The while-loop of HistorySearcher.search (searcher.py lines 18-26):
while depth > 0, follow the first child whose tx exceeds request.tx; when
no child qualifies the body changes nothing and the while condition is
tested again on the same node, so the loop never exits - the fuel
parameter makes that visible as fuelOut for every budget. -/
def searchLoop (st : HistStore) (tgt : Int) :
    Nat → types.HistoryIndexNode → Except TErr types.HistoryIndexNode
  | 0, _ => .error .fuelOut
  | fuel+1, node =>
    if 0 < node.depth then
      match node.children.find? (fun c => decide ((c.1 : Int) > tgt)) with
      | some c => searchLoop st tgt fuel (st.atChild c.2)
      | none => searchLoop st tgt fuel node
    else .ok node

/-- The depth-0 scan of HistorySearcher.search (lines 30-32): return
children[i-1][1] for the first i whose tx exceeds request.tx; i = 0 gives
Python index -1, the LAST child; when no child exceeds the target the
loop falls off the function and Python returns None. -/
def searchLeafLevel (children : List (Nat × Bytes)) (tgt : Int) : Option Bytes :=
  match children.findIdx? (fun c => decide ((c.1 : Int) > tgt)) with
  | some 0 => (children.getLast?).map (fun c => c.2)
  | some (i+1) => (children.get? i).map (fun c => c.2)
  | none => none

/-- HistorySearcher.search assembled; the depth check after the loop
(lines 27-28) is kept although the loop only ever exits at depth 0. -/
def searcherSearch (st : HistStore) (fuel : Nat) (reqOffset : Nat)
    (tgt : Int) : Except TErr (Option Bytes) := do
  let node ← searchLoop st tgt fuel (st.atOffset reqOffset)
  if 0 < node.depth then pure none
  else pure (searchLeafLevel node.children tgt)

/-! Specification-side helpers: the leaf list of a subtree, well-formed
trees, and the pure reference model of operation sequences. -/

/-- All leaves of a subtree, in tree order. -/
def leavesOf : BNode → List Leaf
  | .leaf l => [l]
  | .inner _ _ kids => kids.attach.flatMap (fun c => leavesOf c.1)
termination_by n => sizeOf n
decreasing_by
  simp_wf
  have := List.sizeOf_lt_of_mem c.2
  omega

/-- Keys of the leaves of a subtree, in tree order. -/
def keysOf (n : BNode) : List Bytes := (leavesOf n).map (fun l => l.key)

/-- Leaf lookup in a subtree by exact key. -/
def lookupLeaf (n : BNode) (k : Bytes) : Option Leaf :=
  (leavesOf n).find? (fun l => l.key = k)

/-- Strict lower bound check: none is no bound. -/
def loLt (lo : Option Bytes) (k : Bytes) : Prop := ∀ b, lo = some b → b < k

mutual

/-- Well-formed subtree of structural height d (0 for a leaf) whose keys
all lie strictly above lo: an IntermediateNode of depth d+1 has between 1
and MAX_CHILDREN children of height d, chained in strictly ascending
order starting above lo, and its max_key is the ordering key of its last
child; nodes of depth at least 2 keep a spare slot (they are split
eagerly by split_nodes as soon as an insert fills them, so in every state
reached between operations they hold at most MAX_CHILDREN - 1
children). -/
inductive WF : Nat → Option Bytes → BNode → Prop where
  | leaf (lo : Option Bytes) (l : Leaf) : loLt lo l.key → WF 0 lo (.leaf l)
  | inner (lo : Option Bytes) (d : Nat) (kids : List BNode)
      (hne : kids ≠ [])
      (hl : WFL d lo kids)
      (hsz : kids.length ≤ leaf_node.MAX_CHILDREN)
      (hsz2 : 1 ≤ d → kids.length + 1 ≤ leaf_node.MAX_CHILDREN) :
      WF (d+1) lo (.inner (okeyLast kids) (d+1) kids)

/-- Chained well-formedness of a child list: each child is well-formed
above the ordering key of its predecessor. -/
inductive WFL : Nat → Option Bytes → List BNode → Prop where
  | nil (d : Nat) (lo : Option Bytes) : WFL d lo []
  | cons (d : Nat) (lo : Option Bytes) (c : BNode) (cs : List BNode) :
      WF d lo c → WFL d (some (okey c)) cs → WFL d lo (c :: cs)

end

/-- Well-formed tree state: either the pristine empty root the
constructor builds, or a well-formed head. -/
def WFT (t : Tree) : Prop :=
  (t.head.children = [] ∧ t.head.depth = 1) ∨ WF t.head.depth none (ofInner t.head)

/-- Does an operation address key k. -/
def touches (k : Bytes) : Op → Bool
  | .put k2 _ => k2 = k
  | .del k2 => k2 = k

/-- Reference model of the value a key holds after a prefix of
operations: none means no leaf exists for k, some none a tombstoned leaf,
some (some v) a live value. -/
def stepSpec (k : Bytes) (acc : Option (Option Bytes)) : Op → Option (Option Bytes)
  | .put k2 v => if k2 = k then some (some v) else acc
  | .del k2 =>
    if k2 = k then (match acc with | none => none | some _ => some none) else acc

/-- Reference value of key k after a whole operation sequence. -/
def specVal (k : Bytes) (ops : List Op) : Option (Option Bytes) :=
  ops.foldl (stepSpec k) none

/-- Number of state-changing operations in a sequence: every put, and
every delete whose key was put before it (deletes never remove leaves, so
a key is present exactly when some earlier put created it). -/
def countChanging : List Bytes → List Op → Nat
  | _, [] => 0
  | seen, .put k _ :: rest => 1 + countChanging (k :: seen) rest
  | seen, .del k :: rest => (if k ∈ seen then 1 else 0) + countChanging seen rest

/-! Concrete instances used by the claim theorems, witnesses and
counterexamples. -/

/-- Key b"k". -/
def keyK : Bytes := [107]

/-- Values b"v1", b"v2". -/
def val1 : Bytes := [118, 49]

/-- Value b"v2". -/
def val2 : Bytes := [118, 50]

/-- Two puts of the same key: writes happen at tx 0 (v1) and tx 1 (v2). -/
def c1run : Except TErr Tree :=
  runOps 3 (emptyTree 0) [.put keyK val1, .put keyK val2]

/-- The spec scenario S4: put v1, put v2, delete, put v4 on one key, so
writes happen at tx 0, 1, 2 (delete), 3. -/
def c1runS4 : Except TErr Tree :=
  runOps 5 (emptyTree 0) [.put keyK val1, .put keyK val2, .del keyK,
    .put keyK [118, 52]]

/-- A single put: the leaf history is still empty. -/
def c9run : Except TErr Tree := runOps 2 (emptyTree 0) [.put [1] [10]]

/-- A leaf at the in-memory buffer capacity of 16 history records. -/
def leafAtCap : Leaf :=
  { key := [1], value := some [9], tx := 16, flags := 2, delete := false,
    history := (List.range 16).map (fun i => { tx := Int.ofNat i, value := some [i], delete := false }),
    historyWriteIndex := 0, currentOffset := 0, historyOffset := 0, offset := none }

/-- A live (undeleted) leaf about to receive a delete. -/
def leafLive : Leaf :=
  { key := [1], value := some [5], tx := 3, flags := 2, delete := false,
    history := [{ tx := 0, value := none, delete := false }],
    historyWriteIndex := 0, currentOffset := 0, historyOffset := 0, offset := none }

/-- An empty-history leaf for the C9 witness. -/
def leafFresh : Leaf :=
  { key := [1], value := some [10], tx := 0, flags := 2, delete := false,
    history := [], historyWriteIndex := 0, currentOffset := 0,
    historyOffset := 0, offset := none }

/-- A depth-0 history-index node with the full fan-out of 170 children,
strictly ascending in tx: child i carries tx 10 * (i + 1) and a 12-byte
value tagged with i. -/
def hinLeaf170 : types.HistoryIndexNode :=
  { depth := 0,
    children := (List.range constants.MAX_CHILDREN).map
      (fun i => (10 * (i + 1), List.replicate types.VALUE_SIZE i)) }

/-- A depth-1 history-index node whose 170 children all carry tx at most
170: an as-of query above every stored tx stalls the search loop on this
node. -/
def hinStuck : types.HistoryIndexNode :=
  { depth := 1,
    children := (List.range constants.MAX_CHILDREN).map
      (fun i => (i + 1, List.replicate types.VALUE_SIZE 0)) }

/-- A store that always serves the stalling node. -/
def stuckStore : HistStore :=
  { atOffset := fun _ => hinStuck, atChild := fun _ => hinStuck }

/-- A fully populated valid history-index node (types.py flavour). -/
def hinValid : types.HistoryIndexNode :=
  { depth := 3,
    children := List.replicate constants.MAX_CHILDREN (1, List.replicate types.VALUE_SIZE 0) }

/-- A fully populated valid history-index entry (storage_types.py
flavour). -/
def hieValid : storage_types.HistoryIndexEntry :=
  { offset := 0, depth := 3,
    children := List.replicate constants.MAX_CHILDREN (1, 2, 3, 4) }

/-- Leaf lookup at the tree head. -/
def lookupT (t : Tree) (k : Bytes) : Option Leaf := lookupLeaf (ofInner t.head) k

/-- Observable value map of a tree: none when no leaf holds k, otherwise
the current value of the leaf (itself an Option). -/
def lookupVal (t : Tree) (k : Bytes) : Option (Option Bytes) :=
  (lookupT t k).map (fun l => l.value)

/-- Keys that a sequence of operations ever puts. -/
def putKeys : List Op → List Bytes
  | [] => []
  | .put k _ :: rest => k :: putKeys rest
  | .del _ :: rest => putKeys rest

/-- Bound weakening: every key above lo is also above lo2. -/
def loLe (lo2 lo : Option Bytes) : Prop := ∀ k, loLt lo k → loLt lo2 k

/-- Lower bound holding after a prefix of children: the bound itself for
an empty prefix, otherwise the ordering key of the last child. -/
def preLo (lo : Option Bytes) (pre : List BNode) : Option Bytes :=
  match pre.getLast? with
  | none => lo
  | some c => some (okey c)

/-- Specification of one putGo descent outcome on a well-formed subtree:
which outcome may occur, how the subtree changed, and what the parent
needs to rebuild its own invariant (ordering keys, depths, the leaf
list). -/
def PutResOK (d : Nat) (lo : Option Bytes) (n : Inner) (key : Bytes)
    (vb : Option Bytes) (delete : Bool) (tx : Int) : PutRes → Prop
  | .replaced n2 => WF d lo (ofInner n2) ∧ n2.depth = n.depth
      ∧ okey (ofInner n2) = okey (ofInner n)
      ∧ ∃ l, lookupLeaf (ofInner n) key = some l
          ∧ (∀ k2, lookupLeaf (ofInner n2) k2 =
              if k2 = key then some (add_record l 0 vb tx delete).1
              else lookupLeaf (ofInner n) k2)
  | .noop => delete = true ∧ lookupLeaf (ofInner n) key = none
  | .inserted n2 g => delete = false ∧ lookupLeaf (ofInner n) key = none
      ∧ WF d lo (ofInner n2) ∧ n2.depth = n.depth
      ∧ okey (ofInner n2) = max (okey (ofInner n)) key
      ∧ (g = false → okey (ofInner n2) = okey (ofInner n))
      ∧ (∀ k2, lookupLeaf (ofInner n2) k2 =
          if k2 = key then some (mkLeaf key vb tx leaf_node.PERSIST_HISTORY [] 0 0 0)
          else lookupLeaf (ofInner n) k2)
  | .splitDone n2 => delete = false ∧ lookupLeaf (ofInner n) key = none
      ∧ WF d lo (ofInner n2) ∧ n2.depth = n.depth
      ∧ okey (ofInner n2) = okey (ofInner n)
      ∧ leavesOf (ofInner n2) = leavesOf (ofInner n)
  | .splitting lft rgt => delete = false ∧ lookupLeaf (ofInner n) key = none
      ∧ WF d lo (ofInner lft) ∧ WF d (some (okey (ofInner lft))) (ofInner rgt)
      ∧ lft.depth = n.depth ∧ rgt.depth = n.depth
      ∧ okey (ofInner rgt) = okey (ofInner n)
      ∧ leavesOf (ofInner lft) ++ leavesOf (ofInner rgt) = leavesOf (ofInner n)

/-- The tree after one put of b"k" -> b"v1" from an empty tree with
epoch 0: a single leaf under the depth-1 root, tx advanced to 1. -/
def onePutTree : Tree :=
  { head := { maxKey := keyK, depth := 1,
              children := [.leaf (mkLeaf keyK (some val1) 0 leaf_node.PERSIST_HISTORY [] 0 0 0)] },
    tx := 1 }

/-- A put of b"k" followed by a delete of the absent key [9]. -/
def c3ops : List Op := [.put keyK val1, .del [9]]

/-- The tree c3ops produces from epoch 5: one leaf, one counted
operation. -/
def c3t : Tree :=
  { head := { maxKey := keyK, depth := 1,
              children := [.leaf (mkLeaf keyK (some val1) 5 leaf_node.PERSIST_HISTORY [] 0 0 0)] },
    tx := 6 }

/-- A single put, reaching a one-leaf tree. -/
def c4ops : List Op := [.put keyK val1]

end HistProto

namespace HistProto

theorem pySetSlice_length (buf xs : Bytes) (s e : Nat) :
    (pySetSlice buf s e xs).length = min s buf.length + xs.length + (buf.length - e) := by
  simp [pySetSlice]
  omega

theorem writeSeq_length (w : Nat) (chunks : List Bytes)
    (hw : ∀ xs ∈ chunks, xs.length = w) :
    ∀ (buf : Bytes) (s : Nat), s ≤ buf.length →
      (writeSeq w buf s chunks).length = max buf.length (s + w * chunks.length) := by
  induction chunks with
  | nil => intro buf s hs; simp [writeSeq]; omega
  | cons x rest ih =>
    intro buf s hs
    have hx : x.length = w := hw x (by simp)
    have hrest : ∀ xs ∈ rest, xs.length = w := fun xs h => hw xs (by simp [h])
    rw [writeSeq]
    have hlen := pySetSlice_length buf x s (s + w)
    have hs2 : s + w ≤ (pySetSlice buf s (s + w) x).length := by omega
    rw [ih hrest _ _ hs2]
    simp only [Nat.max_def, List.length_cons, Nat.mul_succ]
    split_ifs <;> omega

theorem toBytesLE_spec (v w : Nat) (h : v < 256 ^ w) :
    ∃ bs, toBytesLE v w = some bs ∧ bs.length = w := by
  refine ⟨(List.range w).map (fun i => v / 256 ^ i % 256), ?_, by simp⟩
  simp [toBytesLE, h]

theorem hinChunks_spec (cs : List (Nat × Bytes))
    (h : ∀ c ∈ cs, c.1 < 256 ^ 16 ∧ c.2.length = types.VALUE_SIZE) :
    ∃ chunks, types.hinChunks cs = some chunks ∧ chunks.length = cs.length
      ∧ ∀ xs ∈ chunks, xs.length = types.CHILD_SIZE := by
  induction cs with
  | nil => exact ⟨[], rfl, rfl, by simp⟩
  | cons c rest ih =>
    obtain ⟨h1, h2⟩ := h c (by simp)
    obtain ⟨txb, htxb, hlen⟩ := toBytesLE_spec c.1 16 h1
    obtain ⟨chunks, hch, hchlen, hall⟩ := ih (fun c h2 => h c (by simp [h2]))
    refine ⟨(txb ++ c.2) :: chunks, ?_, by simp [hchlen], ?_⟩
    · simp [types.hinChunks, htxb, hch]
    · intro xs hxs
      rcases List.mem_cons.1 hxs with h | h
      · subst h; simp [hlen, h2, types.CHILD_SIZE]
      · exact hall xs h

theorem serialize_hin_length (n : types.HistoryIndexNode) (h : types.validHIN n) :
    ∃ bs, n.serialize = some bs
      ∧ bs.length = 2 + types.CHILD_SIZE * constants.MAX_CHILDREN := by
  obtain ⟨hlen, hd, hc⟩ := h
  obtain ⟨d, hd2, hdlen⟩ := toBytesLE_spec n.depth 2 hd
  obtain ⟨chunks, hch, hchlen, hall⟩ := hinChunks_spec n.children hc
  refine ⟨writeSeq types.CHILD_SIZE
    (pySetSlice (List.replicate ((16 + 8) * constants.MAX_CHILDREN + 2) 0) 0 2 d) 2 chunks,
    ?_, ?_⟩
  · unfold types.HistoryIndexNode.serialize
    rw [hd2, hch]
    rfl
  have hinit : (pySetSlice (List.replicate ((16 + 8) * constants.MAX_CHILDREN + 2) 0) 0 2 d).length
      = (16 + 8) * constants.MAX_CHILDREN + 2 := by
    rw [pySetSlice_length]
    simp only [List.length_replicate, hdlen]
    omega
  rw [writeSeq_length types.CHILD_SIZE chunks hall _ 2 (by rw [hinit]; decide)]
  rw [hinit, hchlen, hlen]
  decide

theorem hieChunks_spec (cs : List (Nat × Nat × Nat × Nat))
    (h : ∀ c ∈ cs, c.1 < 256 ∧ c.2.1 < 256 ^ 16 ∧ c.2.2.1 < 256 ^ 8 ∧ c.2.2.2 < 256 ^ 8) :
    ∃ chunks, storage_types.hieChunks cs = some chunks ∧ chunks.length = cs.length
      ∧ ∀ xs ∈ chunks, xs.length = storage_types.CHILD_TUPLE_SIZE := by
  induction cs with
  | nil => exact ⟨[], rfl, rfl, by simp⟩
  | cons c rest ih =>
    obtain ⟨h1, h2, h3, h4⟩ := h c (by simp)
    obtain ⟨fb, hfb, hfblen⟩ := toBytesLE_spec c.1 1 (by simpa using h1)
    obtain ⟨txb, htxb, htxblen⟩ := toBytesLE_spec c.2.1 16 h2
    obtain ⟨ob, hob, hoblen⟩ := toBytesLE_spec c.2.2.1 8 h3
    obtain ⟨lb, hlb, hlblen⟩ := toBytesLE_spec c.2.2.2 8 h4
    obtain ⟨chunks, hch, hchlen, hall⟩ := ih (fun c h5 => h c (by simp [h5]))
    refine ⟨(fb ++ txb ++ ob ++ lb) :: chunks, ?_, by simp [hchlen], ?_⟩
    · simp [storage_types.hieChunks, hfb, htxb, hob, hlb, hch]
    · intro xs hxs
      rcases List.mem_cons.1 hxs with h | h
      · subst h
        simp [hfblen, htxblen, hoblen, hlblen, storage_types.CHILD_TUPLE_SIZE]
      · exact hall xs h

theorem serialize_hie_length (e : storage_types.HistoryIndexEntry)
    (h : storage_types.validHIE e) :
    ∃ bs, e.serialize = some bs
      ∧ bs.length = 2 + storage_types.CHILD_TUPLE_SIZE * constants.MAX_CHILDREN := by
  obtain ⟨hlen, hd, hc⟩ := h
  obtain ⟨d, hd2, hdlen⟩ := toBytesLE_spec e.depth 1 (by simpa using hd)
  obtain ⟨chunks, hch, hchlen, hall⟩ := hieChunks_spec e.children hc
  refine ⟨writeSeq storage_types.CHILD_TUPLE_SIZE
    (pySetSlice (List.replicate storage_types.HistoryIndexEntry.SIZE 0) 0 2 d) 2 chunks,
    ?_, ?_⟩
  · unfold storage_types.HistoryIndexEntry.serialize
    rw [hd2, hch]
    rfl
  have hinit : (pySetSlice (List.replicate storage_types.HistoryIndexEntry.SIZE 0) 0 2 d).length
      = storage_types.HistoryIndexEntry.SIZE - 1 := by
    rw [pySetSlice_length]
    simp only [List.length_replicate, hdlen]
    decide
  rw [writeSeq_length storage_types.CHILD_TUPLE_SIZE chunks hall _ 2 (by rw [hinit]; decide)]
  rw [hinit, hchlen, hlen]
  decide

end HistProto

namespace HistProto

theorem searchLoop_stuck (fuel : Nat) :
    searchLoop stuckStore 1000 fuel hinStuck = .error .fuelOut := by
  induction fuel with
  | zero => rfl
  | succ n ih =>
    have hfind : hinStuck.children.find? (fun c => decide ((c.1 : Int) > 1000)) = none := by
      decide
    rw [searchLoop]
    rw [if_pos (by decide)]
    rw [hfind]
    exact ih

/-- C10 evidence. -/
theorem C10_theorem (fuel : Nat) :
    searcherSearch stuckStore fuel 0 1000 = .error .fuelOut := by
  unfold searcherSearch
  rw [show stuckStore.atOffset 0 = hinStuck from rfl, searchLoop_stuck fuel]
  rfl

/-- C7 evidence. -/
theorem C7_theorem :
    searchLeafLevel hinLeaf170.children 5 = some (List.replicate types.VALUE_SIZE 169)
    ∧ searchLeafLevel hinLeaf170.children 100000 = none
    ∧ searchLeafLevel hinLeaf170.children 25 = some (List.replicate types.VALUE_SIZE 1) := by
  refine ⟨?_, ?_, ?_⟩ <;> decide

/-- C1 evidence. -/
theorem C1_theorem :
    (c1run.bind (fun t => treeAsOf t keyK 1) = .ok (.someOut val1) ∧ val1 ≠ val2)
    ∧ c1runS4.bind (fun t => treeAsOf t keyK 2) = .ok (.someOut val1)
    ∧ c1runS4.bind (fun t => treeAsOf t keyK 3) = .ok (.someOut val1) := by
  refine ⟨⟨rfl, by decide⟩, rfl, rfl⟩

/-- C9 theorem. -/
theorem C9_theorem (l : Leaf) (h : l.history = []) (tx : Int) :
    as_of l tx = .error .idxErr
    ∧ c9run.bind (fun t => treeAsOf t [1] tx) = .error .idxErr := by
  constructor
  · unfold as_of
    rw [h]
    rfl
  · rfl

/-- C9 witness. -/
theorem C9_witness :
    as_of leafFresh 5 = .error .idxErr
    ∧ c9run.bind (fun t => treeAsOf t [1] 5) = .error .idxErr :=
  C9_theorem leafFresh rfl 5

/-- C5 counterexample. -/
theorem C5_counterexample :
    (add_record leafAtCap 0 (some [7]) 17 false).1.historyOffset = 0
    ∧ (add_record leafAtCap 0 (some [7]) 17 false).1.historyWriteIndex
        = leafAtCap.historyWriteIndex
    ∧ (add_record leafAtCap 0 (some [7]) 17 false).1.history.length = 17
    ∧ ¬ (0 < (add_record leafAtCap 0 (some [7]) 17 false).1.historyOffset
          ∧ leafAtCap.historyWriteIndex
              < (add_record leafAtCap 0 (some [7]) 17 false).1.historyWriteIndex) := by
  refine ⟨rfl, rfl, by decide, by decide⟩

/-- C5 amended. -/
theorem C5_amended (l : Leaf) (off : Nat) (v : Option Bytes) (tx : Int) (d : Bool) :
    (add_record l off v tx d).1.historyOffset = l.historyOffset
    ∧ (add_record l off v tx d).1.historyWriteIndex = l.historyWriteIndex
    ∧ (add_record l off v tx d).1.history
        = l.history ++ [{ tx := l.tx, value := l.value, delete := d }] :=
  ⟨rfl, rfl, rfl⟩

/-- C6 counterexample. -/
theorem C6_counterexample :
    (add_record leafLive 0 none 4 true).1.history.getLast?
      = some { tx := 3, value := some [5], delete := true }
    ∧ leafLive.delete = false := by
  refine ⟨by decide, rfl⟩

/-- C6 amended. -/
theorem C6_amended (l : Leaf) (off : Nat) (v : Option Bytes) (tx : Int) (d : Bool) :
    (add_record l off v tx d).1.history
        = l.history ++ [{ tx := l.tx, value := l.value, delete := d }]
    ∧ (add_record l off v tx d).1.tx = tx
    ∧ (add_record l off v tx d).1.delete = d
    ∧ (add_record l off v tx d).1.value = (if d then none else v)
    ∧ (add_record l off v tx d).2
        = { offset := some off, delete := d,
            value := (if d then none else v).getD [], tx := tx } :=
  ⟨rfl, rfl, rfl, rfl, rfl⟩

/-- C8 counterexample. -/
theorem C8_counterexample :
    (∃ bs, hinValid.serialize = some bs ∧ bs.length = 4762)
    ∧ 4762 ≠ 2 + 33 * constants.MAX_CHILDREN
    ∧ types.HistoryReadRequest.SIZE ≠ 2 + 33 * constants.MAX_CHILDREN := by
  refine ⟨?_, by decide, by decide⟩
  have hv : types.validHIN hinValid := by
    refine ⟨by decide, by decide, ?_⟩
    intro c hc
    have : c = (1, List.replicate types.VALUE_SIZE 0) := by
      simpa using List.eq_of_mem_replicate hc
    subst this
    exact ⟨by decide, by decide⟩
  simpa using serialize_hin_length hinValid hv

/-- C8 amended. -/
theorem C8_amended (e : storage_types.HistoryIndexEntry)
    (he : storage_types.validHIE e)
    (n : types.HistoryIndexNode) (hn : types.validHIN n) :
    (∃ bs, e.serialize = some bs ∧ bs.length = 2 + 33 * constants.MAX_CHILDREN)
    ∧ (∃ bs, n.serialize = some bs ∧ bs.length = 2 + 28 * constants.MAX_CHILDREN)
    ∧ types.HistoryReadRequest.SIZE = 2 + 24 * constants.MAX_CHILDREN := by
  refine ⟨?_, ?_, by decide⟩
  · have := serialize_hie_length e he
    simpa using this
  · have := serialize_hin_length n hn
    simpa using this

/-- C8 witness. -/
theorem C8_witness :
    ((∃ bs, hieValid.serialize = some bs ∧ bs.length = 2 + 33 * constants.MAX_CHILDREN)
    ∧ (∃ bs, hinValid.serialize = some bs ∧ bs.length = 2 + 28 * constants.MAX_CHILDREN)
    ∧ types.HistoryReadRequest.SIZE = 2 + 24 * constants.MAX_CHILDREN) :=
  C8_amended hieValid
    (by
      refine ⟨by decide, by decide, ?_⟩
      intro c hc
      have : c = (1, 2, 3, 4) := by simpa using List.eq_of_mem_replicate hc
      subst this
      exact ⟨by decide, by decide, by decide, by decide⟩)
    hinValid
    (by
      refine ⟨by decide, by decide, ?_⟩
      intro c hc
      have : c = (1, List.replicate types.VALUE_SIZE 0) := by
        simpa using List.eq_of_mem_replicate hc
      subst this
      exact ⟨by decide, by decide⟩)

end HistProto

namespace HistProto

theorem leavesOf_leaf (l : Leaf) : leavesOf (.leaf l) = [l] := by
  simp [leavesOf]

theorem leavesOf_inner (mk : Bytes) (dep : Nat) (kids : List BNode) :
    leavesOf (.inner mk dep kids) = kids.flatMap leavesOf := by
  rw [leavesOf]
  simp

theorem keysOf_inner (mk : Bytes) (dep : Nat) (kids : List BNode) :
    keysOf (.inner mk dep kids) = kids.flatMap keysOf := by
  simp only [keysOf, leavesOf_inner, List.map_flatMap]
  rfl

theorem keysOf_leaf (l : Leaf) : keysOf (.leaf l) = [l.key] := by
  simp [keysOf, leavesOf_leaf]

theorem loLt_none (k : Bytes) : loLt none k := by
  intro b h
  cases h

theorem loLt_some {b k : Bytes} : loLt (some b) k ↔ b < k := by
  constructor
  · intro h; exact h b rfl
  · intro h b2 h2; cases h2; exact h

theorem okeyLast_cons (c : BNode) (cs : List BNode) :
    okeyLast (c :: cs) = if cs.isEmpty then okey c else okeyLast cs := by
  cases cs with
  | nil => simp [okeyLast]
  | cons x xs => simp [okeyLast, List.getLastD]

theorem okeyLast_concat (cs : List BNode) (c : BNode) :
    okeyLast (cs ++ [c]) = okey c := by
  simp [okeyLast, List.getLastD_eq_getLast?, List.getLast?_concat]

theorem okeyLast_cons_cons (a b : BNode) (t : List BNode) :
    okeyLast (a :: b :: t) = okeyLast (b :: t) := by
  simp [okeyLast, List.getLastD_eq_getLast?, List.getLast?_cons_cons]

theorem preLo_nil (lo : Option Bytes) : preLo lo [] = lo := rfl

theorem preLo_cons (lo : Option Bytes) (c : BNode) (pre : List BNode) :
    preLo lo (c :: pre) = preLo (some (okey c)) pre := by
  cases pre with
  | nil => simp [preLo]
  | cons x xs => simp [preLo, List.getLast?]

theorem WF_leaf_inv {d : Nat} {lo : Option Bytes} {l : Leaf}
    (h : WF d lo (.leaf l)) : d = 0 ∧ loLt lo l.key := by
  cases h
  exact ⟨rfl, by assumption⟩

theorem WF_inner_inv {d : Nat} {lo : Option Bytes} {mk : Bytes} {dep : Nat}
    {kids : List BNode} (h : WF d lo (.inner mk dep kids)) :
    mk = okeyLast kids ∧ dep = d
    ∧ ∃ d0, d = d0 + 1 ∧ kids ≠ [] ∧ WFL d0 lo kids
      ∧ kids.length ≤ leaf_node.MAX_CHILDREN
      ∧ (1 ≤ d0 → kids.length + 1 ≤ leaf_node.MAX_CHILDREN) := by
  cases h with
  | inner lo d0 kids hne hl hsz hsz2 =>
    exact ⟨rfl, rfl, d0, rfl, hne, hl, hsz, hsz2⟩

mutual

theorem WF_weaken {d : Nat} {lo : Option Bytes} {n : BNode} (h : WF d lo n)
    {lo2 : Option Bytes} (hle : loLe lo2 lo) : WF d lo2 n :=
  match h with
  | .leaf _ l hk => .leaf lo2 l (hle _ hk)
  | .inner _ d0 kids hne hl hsz hsz2 =>
      .inner lo2 d0 kids hne (WFL_weaken hl hle) hsz hsz2

theorem WFL_weaken {d : Nat} {lo : Option Bytes} {cs : List BNode} (h : WFL d lo cs)
    {lo2 : Option Bytes} (hle : loLe lo2 lo) : WFL d lo2 cs :=
  match h with
  | .nil _ _ => .nil d lo2
  | .cons _ _ c cs hc hcs => .cons d lo2 c cs (WF_weaken hc hle) hcs

end

mutual

theorem wf_keys {d : Nat} {lo : Option Bytes} {n : BNode} (h : WF d lo n) :
    (keysOf n).getLast? = some (okey n) ∧ ∀ k ∈ keysOf n, loLt lo k ∧ k ≤ okey n :=
  match h with
  | .leaf _ l hk => by
      refine ⟨by simp [keysOf_leaf, okey], ?_⟩
      intro k hkm
      rw [keysOf_leaf] at hkm
      simp at hkm
      subst hkm
      exact ⟨hk, le_refl _⟩
  | .inner _ d0 kids hne hl _ _ => by
      have hkl := wfl_keys hl
      refine ⟨?_, ?_⟩
      · rw [keysOf_inner, okey]
        exact hkl.1 hne
      · intro k hkm
        rw [keysOf_inner] at hkm
        have := hkl.2 k hkm
        rw [okey]
        exact this

theorem wfl_keys {d : Nat} {lo : Option Bytes} {cs : List BNode} (h : WFL d lo cs) :
    (cs ≠ [] → (cs.flatMap keysOf).getLast? = some (okeyLast cs))
    ∧ ∀ k ∈ cs.flatMap keysOf, loLt lo k ∧ k ≤ okeyLast cs :=
  match h with
  | .nil _ _ => by
      refine ⟨fun h => absurd rfl h, ?_⟩
      intro k hk
      simp at hk
  | .cons _ _ c cs hc hcs => by
      have hck := wf_keys hc
      have hcsk := wfl_keys hcs
      have hcne : keysOf c ≠ [] := by
        intro hmt
        rw [hmt] at hck
        simp at hck
      have hlastle : okey c ≤ okeyLast (c :: cs) := by
        cases cs with
        | nil => simp [okeyLast_cons]
        | cons c2 cs2 =>
          rw [okeyLast_cons]
          simp only [List.isEmpty_cons, if_false]
          have hlast := hcsk.1 (by simp)
          have hmem : okeyLast (c2 :: cs2) ∈ (c2 :: cs2).flatMap keysOf := by
            obtain ⟨ys, hys⟩ := List.getLast?_eq_some_iff.1 hlast
            rw [hys]
            simp
          have hgt := (hcsk.2 _ hmem).1
          exact le_of_lt (hgt _ rfl)
      constructor
      · intro _
        rw [List.flatMap_cons, List.getLast?_append]
        cases cs with
        | nil =>
          simp only [List.flatMap_nil]
          rw [okeyLast_cons]
          simp only [List.isEmpty_nil, if_true]
          simp [hck.1]
        | cons c2 cs2 =>
          have h1 := hcsk.1 (by simp)
          rw [h1, okeyLast_cons_cons]
          rfl
      · intro k hk
        rw [List.flatMap_cons, List.mem_append] at hk
        rcases hk with hk | hk
        · have := hck.2 k hk
          exact ⟨this.1, le_trans this.2 hlastle⟩
        · have := hcsk.2 k hk
          refine ⟨?_, ?_⟩
          · intro b hb
            have hbc : b < okey c := by
              have := hck.2 (okey c) ?_
              · exact this.1 b hb
              · have := List.getLast?_eq_some_iff.1 hck.1
                obtain ⟨ys, hys⟩ := this
                rw [hys]
                simp
            exact lt_trans hbc ((loLt_some).1 (this.1))
          · rcases this with ⟨hlo, hle2⟩
            rw [okeyLast_cons]
            cases cs with
            | nil => simp at hk
            | cons c2 cs2 =>
              simpa using hle2

end

end HistProto

namespace HistProto

theorem WF_zero_inv {lo : Option Bytes} {c : BNode} (h : WF 0 lo c) :
    ∃ l, c = .leaf l ∧ loLt lo l.key := by
  cases h with
  | leaf _ l hk => exact ⟨l, rfl, hk⟩

theorem WF_pos_inv {d : Nat} {lo : Option Bytes} {c : BNode} (h : WF (d + 1) lo c) :
    ∃ kids, c = .inner (okeyLast kids) (d + 1) kids ∧ kids ≠ [] ∧ WFL d lo kids
      ∧ kids.length ≤ leaf_node.MAX_CHILDREN
      ∧ (1 ≤ d → kids.length + 1 ≤ leaf_node.MAX_CHILDREN) := by
  cases h with
  | inner _ d0 kids hne hl hsz hsz2 => exact ⟨kids, rfl, hne, hl, hsz, hsz2⟩

theorem wfl_split {d : Nat} (pre : List BNode) (c : BNode) (post : List BNode) :
    ∀ {lo : Option Bytes}, WFL d lo (pre ++ c :: post) →
      WFL d lo pre ∧ WF d (preLo lo pre) c ∧ WFL d (some (okey c)) post := by
  induction pre with
  | nil =>
    intro lo h
    rw [List.nil_append] at h
    cases h with
    | cons _ _ _ _ hc hcs => exact ⟨.nil d lo, by rwa [preLo_nil], hcs⟩
  | cons x xs ih =>
    intro lo h
    rw [List.cons_append] at h
    cases h with
    | cons _ _ _ _ hx hxs =>
      obtain ⟨h1, h2, h3⟩ := ih hxs
      exact ⟨.cons d lo x xs hx h1, by rwa [preLo_cons], h3⟩

theorem wfl_join {d : Nat} (pre : List BNode) :
    ∀ {lo : Option Bytes} {rest : List BNode},
      WFL d lo pre → WFL d (preLo lo pre) rest → WFL d lo (pre ++ rest) := by
  induction pre with
  | nil =>
    intro lo rest h1 h2
    rw [preLo_nil] at h2
    simpa using h2
  | cons x xs ih =>
    intro lo rest h1 h2
    cases h1 with
    | cons _ _ _ _ hx hxs =>
      rw [preLo_cons] at h2
      exact .cons d lo x (xs ++ rest) hx (ih hxs h2)

theorem wf_okey_mem {d : Nat} {lo : Option Bytes} {n : BNode} (h : WF d lo n) :
    okey n ∈ keysOf n := by
  obtain ⟨ys, hys⟩ := List.getLast?_eq_some_iff.1 (wf_keys h).1
  rw [hys]
  simp

theorem lookup_flatMap_none {cs : List BNode} {key : Bytes}
    (h : ∀ l ∈ cs.flatMap leavesOf, l.key ≠ key) :
    (cs.flatMap leavesOf).find? (fun l => l.key = key) = none := by
  rw [List.find?_eq_none]
  intro l hl
  simpa using h l hl

theorem key_mem_flatMap {cs : List BNode} {l : Leaf} (c : BNode) (hc : c ∈ cs)
    (hl : l ∈ leavesOf c) : l.key ∈ cs.flatMap keysOf := by
  rw [List.mem_flatMap]
  exact ⟨c, hc, by simp [keysOf]; exact ⟨l, hl, rfl⟩⟩

theorem getChild_spec {d : Nat} {cs : List BNode} (key : Bytes) :
    ∀ {lo : Option Bytes}, WFL d lo cs →
      (cs.find? (fun c => decide (key ≤ okey c)) = none →
        (cs.flatMap leavesOf).find? (fun l => l.key = key) = none)
      ∧ (∀ c, cs.find? (fun c => decide (key ≤ okey c)) = some c →
        c ∈ cs ∧ (∃ lo2, WF d lo2 c)
        ∧ (cs.flatMap leavesOf).find? (fun l => l.key = key)
            = (leavesOf c).find? (fun l => l.key = key)) := by
  induction cs with
  | nil =>
    intro lo h
    refine ⟨fun _ => rfl, ?_⟩
    intro c hc
    simp [List.find?] at hc
  | cons x xs ih =>
    intro lo h
    cases h with
    | cons _ _ _ _ hx hxs =>
      have ihx := ih hxs
      by_cases hkey : key ≤ okey x
      · constructor
        · intro hfind
          rw [List.find?_cons_of_pos _ (by simpa using hkey)] at hfind
          cases hfind
        · intro c hc
          rw [List.find?_cons_of_pos _ (by simpa using hkey)] at hc
          cases hc
          refine ⟨by simp, ⟨lo, hx⟩, ?_⟩
          rw [List.flatMap_cons, List.find?_append]
          have hrest : (xs.flatMap leavesOf).find? (fun l => l.key = key) = none := by
            apply lookup_flatMap_none
            intro l hl
            rw [List.mem_flatMap] at hl
            obtain ⟨c2, hc2, hlc2⟩ := hl
            have hkmem := key_mem_flatMap c2 hc2 hlc2
            have := (wfl_keys hxs).2 _ hkmem
            have hgt : okey x < l.key := this.1 _ rfl
            intro heq
            rw [heq] at hgt
            exact absurd hkey (not_le.2 hgt)
          rw [hrest]
          cases hfx : (leavesOf x).find? (fun l => l.key = key) <;> simp
      · constructor
        · intro hfind
          rw [List.find?_cons_of_neg _ (by simpa using hkey)] at hfind
          rw [List.flatMap_cons, List.find?_append, (ihx.1 hfind)]
          have hx0 : (leavesOf x).find? (fun l => l.key = key) = none := by
            rw [List.find?_eq_none]
            intro l hl
            have hkm : l.key ∈ keysOf x := by
              simp [keysOf]
              exact ⟨l, hl, rfl⟩
            have := (wf_keys hx).2 _ hkm
            simp only [decide_eq_true_eq]
            intro heq
            rw [heq] at this
            exact absurd (le_trans (le_of_eq rfl) this.2) hkey
          rw [hx0]
          rfl
        · intro c hc
          rw [List.find?_cons_of_neg _ (by simpa using hkey)] at hc
          obtain ⟨hmem, hwfc, heq⟩ := ihx.2 c hc
          refine ⟨by simp [hmem], hwfc, ?_⟩
          rw [List.flatMap_cons, List.find?_append]
          have hx0 : (leavesOf x).find? (fun l => l.key = key) = none := by
            rw [List.find?_eq_none]
            intro l hl
            have hkm : l.key ∈ keysOf x := by
              simp [keysOf]
              exact ⟨l, hl, rfl⟩
            have := (wf_keys hx).2 _ hkm
            simp only [decide_eq_true_eq]
            intro heq2
            rw [heq2] at this
            exact absurd (le_trans (le_of_eq rfl) this.2) hkey
          rw [hx0, heq]
          rfl

end HistProto

namespace HistProto

theorem find_leaf_cons_pos {l : Leaf} {rest : List Leaf} {key : Bytes}
    (h : l.key = key) :
    (l :: rest).find? (fun l2 => l2.key = key) = some l :=
  List.find?_cons_of_pos _ (by simpa using h)

theorem find_leaf_cons_neg {l : Leaf} {rest : List Leaf} {key : Bytes}
    (h : ¬ l.key = key) :
    (l :: rest).find? (fun l2 => l2.key = key) = rest.find? (fun l2 => l2.key = key) :=
  List.find?_cons_of_neg _ (by simpa using h)

theorem searchLeafIdx_spec {cs : List BNode} (key : Bytes) :
    ∀ {lo : Option Bytes}, WFL 0 lo cs →
      (∀ i, searchLeafIdx? key cs = some i →
        ∃ l : Leaf, cs.get? i = some (.leaf l) ∧ l.key = key
          ∧ (cs.flatMap leavesOf).find? (fun l2 => l2.key = key) = some l)
      ∧ (searchLeafIdx? key cs = none →
        (cs.flatMap leavesOf).find? (fun l2 => l2.key = key) = none) := by
  induction cs with
  | nil =>
    intro lo h
    refine ⟨?_, fun _ => rfl⟩
    intro i hi
    exact absurd hi (by rw [searchLeafIdx?]; simp)
  | cons x xs ih =>
    intro lo h
    cases h with
    | cons _ _ _ _ hx hxs =>
      obtain ⟨l, hleq, hlk⟩ := WF_zero_inv hx
      subst hleq
      have ihx := ih hxs
      constructor
      · intro i hi
        rw [searchLeafIdx?] at hi
        by_cases he : okey (.leaf l) = key
        · rw [if_pos he] at hi
          cases hi
          refine ⟨l, by simp, he, ?_⟩
          rw [List.flatMap_cons, leavesOf_leaf, List.singleton_append]
          exact find_leaf_cons_pos he
        · rw [if_neg he] at hi
          by_cases hlt : key < okey (.leaf l)
          · rw [if_pos hlt] at hi
            cases hi
          · rw [if_neg hlt] at hi
            rcases hmap : searchLeafIdx? key xs with _ | j
            · rw [hmap] at hi
              cases hi
            · rw [hmap] at hi
              cases hi
              obtain ⟨l2, hl2get, hl2key, hl2find⟩ := (ihx.1) j hmap
              refine ⟨l2, hl2get, hl2key, ?_⟩
              rw [List.flatMap_cons, leavesOf_leaf, List.singleton_append,
                find_leaf_cons_neg he, hl2find]
      · intro hnone
        rw [searchLeafIdx?] at hnone
        by_cases he : okey (.leaf l) = key
        · rw [if_pos he] at hnone
          cases hnone
        · rw [if_neg he] at hnone
          by_cases hlt : key < okey (.leaf l)
          · rw [List.flatMap_cons, leavesOf_leaf, List.singleton_append,
              find_leaf_cons_neg he]
            apply lookup_flatMap_none
            intro l2 hl2
            rw [List.mem_flatMap] at hl2
            obtain ⟨c2, hc2, hlc2⟩ := hl2
            have hkmem := key_mem_flatMap c2 hc2 hlc2
            have hgt := ((wfl_keys hxs).2 _ hkmem).1 _ rfl
            intro heq
            rw [heq] at hgt
            exact absurd (lt_trans hlt hgt) (lt_irrefl key)
          · rw [if_neg hlt] at hnone
            rcases hmap : searchLeafIdx? key xs with _ | j
            · rw [List.flatMap_cons, leavesOf_leaf, List.singleton_append,
                find_leaf_cons_neg he, ihx.2 hmap]
            · rw [hmap] at hnone
              simp at hnone

theorem lookupLeaf_inner (mk : Bytes) (dep : Nat) (kids : List BNode) (key : Bytes) :
    lookupLeaf (.inner mk dep kids) key
      = (kids.flatMap leavesOf).find? (fun l => l.key = key) := by
  rw [lookupLeaf, leavesOf_inner]

theorem lookupLeaf_ofInner (n : Inner) (key : Bytes) :
    lookupLeaf (ofInner n) key
      = (n.children.flatMap leavesOf).find? (fun l => l.key = key) :=
  lookupLeaf_inner n.maxKey n.depth n.children key

theorem getGo_spec : ∀ (dfuel : Nat) {d : Nat} {lo : Option Bytes} (n : Inner)
    (key : Bytes), WF d lo (ofInner n) → d ≤ dfuel →
    getGo dfuel n key = .ok (lookupLeaf (ofInner n) key) := by
  intro dfuel
  induction dfuel with
  | zero =>
    intro d lo n key hwf hd
    obtain ⟨_, _, d0, hd0, _⟩ := WF_inner_inv hwf
    omega
  | succ df ih =>
    intro d lo n key hwf hd
    obtain ⟨hmk, hdep, d0, hd0, hne, hl, hsz, hsz2⟩ := WF_inner_inv hwf
    rw [getGo]
    by_cases hdeep : 1 < n.depth
    · rw [if_pos hdeep]
      rw [if_neg (by simpa using hne)]
      have hspec := getChild_spec key hl
      rcases hfind : n.children.find? (fun c => decide (key ≤ okey c)) with _ | c
      · rw [lookupLeaf_ofInner, hspec.1 hfind]
      · obtain ⟨hmem, ⟨lo2, hwfc⟩, heq⟩ := hspec.2 c hfind
        have hd0pos : 1 ≤ d0 := by
          rw [hdep] at hdeep
          omega
        obtain ⟨d1, hd1⟩ : ∃ d1, d0 = d1 + 1 := ⟨d0 - 1, by omega⟩
        rw [hd1] at hwfc
        obtain ⟨kids2, hc, hne2, hl2, hsz2a, hsz2b⟩ := WF_pos_inv hwfc
        subst hc
        have hrec := ih { maxKey := okeyLast kids2, depth := d1 + 1, children := kids2 } key
          (show WF (d1 + 1) lo2
            (ofInner { maxKey := okeyLast kids2, depth := d1 + 1, children := kids2 })
            from hwfc) (by omega)
        show getGo df { maxKey := okeyLast kids2, depth := d1 + 1, children := kids2 } key
            = Except.ok (lookupLeaf (ofInner n) key)
        rw [hrec, lookupLeaf_ofInner, lookupLeaf_ofInner, heq, leavesOf_inner]
    · rw [if_neg hdeep]
      have hd0z : d0 = 0 := by
        rw [hdep] at hdeep
        omega
      rw [hd0z] at hl
      have hspec := searchLeafIdx_spec key hl
      rcases hfind : searchLeafIdx? key n.children with _ | i
      · show Except.ok none = Except.ok (lookupLeaf (ofInner n) key)
        rw [lookupLeaf_ofInner, hspec.2 hfind]
      · obtain ⟨l, hget, hkey, hfindeq⟩ := hspec.1 i hfind
        show Except.ok (leafAt? n.children i) = Except.ok (lookupLeaf (ofInner n) key)
        rw [lookupLeaf_ofInner, hfindeq, leafAt?, hget]

end HistProto

namespace HistProto

theorem wfl_split2 {d : Nat} (pre : List BNode) :
    ∀ {lo : Option Bytes} {rest : List BNode}, WFL d lo (pre ++ rest) →
      WFL d lo pre ∧ WFL d (preLo lo pre) rest := by
  induction pre with
  | nil =>
    intro lo rest h
    exact ⟨.nil d lo, by rwa [preLo_nil]⟩
  | cons x xs ih =>
    intro lo rest h
    rw [List.cons_append] at h
    cases h with
    | cons _ _ _ _ hx hxs =>
      obtain ⟨h1, h2⟩ := ih hxs
      exact ⟨.cons d lo x xs hx h1, by rwa [preLo_cons]⟩

theorem preLo_eq_some {lo : Option Bytes} {pre : List BNode} (h : pre ≠ []) :
    preLo lo pre = some (okeyLast pre) := by
  rw [preLo, okeyLast]
  rcases hlast : pre.getLast? with _ | c
  · exact absurd (List.getLast?_eq_none_iff.1 hlast) h
  · rw [List.getLastD_eq_getLast?, hlast]
    rfl

theorem insLoop_exact {c : BNode} : ∀ (pre post : List BNode),
    (∀ x ∈ pre, okey x < okey c) →
    (∀ p ∈ post.head?, okey c < okey p) →
    insLoop c (pre ++ post) = .ok (match post with
      | [] => none
      | _ :: _ => some (pre ++ c :: post)) := by
  intro pre
  induction pre with
  | nil =>
    intro post hpre hpost
    cases post with
    | nil => rfl
    | cons p ps =>
      have hcp : okey c < okey p := hpost p (by simp)
      rw [List.nil_append, insLoop]
      rw [if_neg (by intro he; rw [he] at hcp; exact lt_irrefl _ hcp)]
      rw [if_pos hcp]
      simp
  | cons x xs ih =>
    intro post hpre hpost
    have hx : okey x < okey c := hpre x (by simp)
    rw [List.cons_append, insLoop]
    rw [if_neg (by intro he; rw [he] at hx; exact lt_irrefl _ hx)]
    rw [if_neg (not_lt.2 (le_of_lt hx))]
    rw [ih post (fun y hy => hpre y (by simp [hy])) hpost]
    cases post <;> rfl

theorem wfl_okey_gt {d : Nat} : ∀ {cs : List BNode} {lo : Option Bytes},
    WFL d lo cs → ∀ y ∈ cs, loLt lo (okey y) := by
  intro cs
  induction cs with
  | nil =>
    intro lo h y hy
    exact absurd hy (by simp)
  | cons x xs ih =>
    intro lo h y hy
    cases h with
    | cons _ _ _ _ hx hxs =>
      have hxok : loLt lo (okey x) :=
        ((wf_keys hx).2 _ (wf_okey_mem hx)).1
      rcases List.mem_cons.1 hy with hy | hy
      · rw [hy]; exact hxok
      · have h2 := ih hxs y hy
        intro b hb
        exact lt_trans (hxok b hb) (h2 _ rfl)

theorem wfl_mem_wf {d : Nat} : ∀ {cs : List BNode} {lo : Option Bytes},
    WFL d lo cs → ∀ y ∈ cs, ∃ lo2, WF d lo2 y := by
  intro cs
  induction cs with
  | nil =>
    intro lo h y hy
    exact absurd hy (by simp)
  | cons x xs ih =>
    intro lo h y hy
    cases h with
    | cons _ _ _ _ hx hxs =>
      rcases List.mem_cons.1 hy with hy | hy
      · exact ⟨lo, hy ▸ hx⟩
      · exact ih hxs y hy

theorem sorted_partition {d0 : Nat} (key : Bytes) : ∀ {cs : List BNode} {lo : Option Bytes},
    WFL d0 lo cs → (∀ x ∈ cs, okey x ≠ key) →
    ∃ pre post, cs = pre ++ post ∧ (∀ x ∈ pre, okey x < key)
      ∧ (∀ p ∈ post.head?, key < okey p)
      ∧ (∀ x ∈ post, key < okey x) := by
  intro cs
  induction cs with
  | nil =>
    intro lo h hne
    exact ⟨[], [], rfl, by simp, by simp, by simp⟩
  | cons x xs ih =>
    intro lo h hne
    cases h with
    | cons _ _ _ _ hx hxs =>
      rcases lt_or_gt_of_ne (hne x (by simp)) with hlt | hgt
      · obtain ⟨pre, post, heq, hpre, hpost, hpostall⟩ := ih hxs
          (fun y hy => hne y (by simp [hy]))
        refine ⟨x :: pre, post, by rw [heq, List.cons_append], ?_, hpost, hpostall⟩
        intro y hy
        rcases List.mem_cons.1 hy with hy | hy
        · rw [hy]; exact hlt
        · exact hpre y hy
      · refine ⟨[], x :: xs, rfl, by simp, ?_, ?_⟩
        · intro p hp
          simp at hp
          rw [← hp]
          exact hgt
        · intro y hy
          rcases List.mem_cons.1 hy with hy | hy
          · rw [hy]; exact hgt
          · exact lt_trans hgt (wfl_okey_gt hxs y hy _ rfl)

end HistProto

namespace HistProto

theorem okeyLast_append_right (pre rest : List BNode) (h : rest ≠ []) :
    okeyLast (pre ++ rest) = okeyLast rest := by
  rw [okeyLast, okeyLast, List.getLastD_eq_getLast?, List.getLastD_eq_getLast?,
    List.getLast?_append]
  rcases hlast : rest.getLast? with _ | y
  · exact absurd (List.getLast?_eq_none_iff.1 hlast) h
  · rfl

theorem okeyLast_mem {cs : List BNode} (h : cs ≠ []) :
    ∃ y ∈ cs, okeyLast cs = okey y := by
  rcases hlast : cs.getLast? with _ | y
  · exact absurd (List.getLast?_eq_none_iff.1 hlast) h
  · obtain ⟨ys, hys⟩ := List.getLast?_eq_some_iff.1 hlast
    refine ⟨y, by rw [hys]; simp, ?_⟩
    rw [okeyLast, List.getLastD_eq_getLast?, hlast]
    rfl

theorem wfl0_mem_leaf {lo : Option Bytes} {cs : List BNode} (h : WFL 0 lo cs)
    {l : Leaf} (hl : l ∈ cs.flatMap leavesOf) : BNode.leaf l ∈ cs := by
  rw [List.mem_flatMap] at hl
  obtain ⟨x, hx, hlx⟩ := hl
  obtain ⟨lo2, hwx⟩ := wfl_mem_wf h x hx
  obtain ⟨lx, hxeq, _⟩ := WF_zero_inv hwx
  subst hxeq
  rw [leavesOf_leaf] at hlx
  simp at hlx
  subst hlx
  exact hx

theorem find_insert_pointwise {preL postL : List Leaf} {nl : Leaf}
    (hpre : ∀ l ∈ preL, l.key ≠ nl.key) (k2 : Bytes) :
    (preL ++ nl :: postL).find? (fun l => l.key = k2)
      = if k2 = nl.key then some nl
        else (preL ++ postL).find? (fun l => l.key = k2) := by
  rw [List.find?_append, List.find?_append]
  rcases hfp : preL.find? (fun l => decide (l.key = k2)) with _ | x
  · rw [hfp]
    by_cases hk : k2 = nl.key
    · rw [if_pos hk, find_leaf_cons_pos hk.symm]
      rfl
    · rw [if_neg hk, find_leaf_cons_neg (fun he => hk he.symm)]
  · have hxmem := List.mem_of_find?_eq_some hfp
    have hxkey : x.key = k2 := by simpa using List.find?_some hfp
    by_cases hk : k2 = nl.key
    · exact absurd (hxkey.trans hk) (hpre x hxmem)
    · rw [if_neg hk, hfp]
      simp

theorem insert_new_leaf_spec {lo : Option Bytes} {n : Inner} (key : Bytes)
    (vb : Option Bytes) (tx : Int)
    (hl : WFL 0 lo n.children) (hmk : n.maxKey = okeyLast n.children)
    (hne : n.children ≠ []) (hdep : n.depth = 1)
    (hlen : n.children.length < leaf_node.MAX_CHILDREN)
    (hlo : loLt lo key)
    (hmiss : (n.children.flatMap leavesOf).find? (fun l => l.key = key) = none) :
    ∃ n2, insertNode n (.leaf (mkLeaf key vb tx leaf_node.PERSIST_HISTORY [] 0 0 0)) = .ok n2
      ∧ WF 1 lo (ofInner n2) ∧ n2.depth = n.depth
      ∧ okey (ofInner n2) = max (okey (ofInner n)) key
      ∧ n2.children.length = n.children.length + 1
      ∧ (∀ k2, lookupLeaf (ofInner n2) k2 =
          if k2 = key then some (mkLeaf key vb tx leaf_node.PERSIST_HISTORY [] 0 0 0)
          else lookupLeaf (ofInner n) k2) := by
  set nl := mkLeaf key vb tx leaf_node.PERSIST_HISTORY [] 0 0 0 with hnl
  have hnlkey : nl.key = key := rfl
  have hokc : okey (.leaf nl) = key := rfl
  have hneq : ∀ x ∈ n.children, okey x ≠ key := by
    intro x hx heq2
    obtain ⟨lo2, hwx⟩ := wfl_mem_wf hl x hx
    obtain ⟨lx, hxeq, _⟩ := WF_zero_inv hwx
    subst hxeq
    have hmem : lx ∈ n.children.flatMap leavesOf := by
      rw [List.mem_flatMap]
      exact ⟨.leaf lx, hx, by rw [leavesOf_leaf]; simp⟩
    rw [List.find?_eq_none] at hmiss
    exact absurd (by simpa using heq2) (by simpa using hmiss lx hmem)
  obtain ⟨pre, post, heq, hpre, hposthead, hpostall⟩ := sorted_partition key hl hneq
  have hpre2 : ∀ x ∈ pre, okey x < okey (.leaf nl) := by
    rw [hokc]; exact hpre
  have hpost2 : ∀ p ∈ post.head?, okey (.leaf nl) < okey p := by
    rw [hokc]; exact hposthead
  have hins := insLoop_exact pre post hpre2 hpost2
  rw [← heq] at hins
  obtain ⟨hlpre, hlpost⟩ := wfl_split2 pre (heq ▸ hl)
  have hpreleaf : ∀ l ∈ pre.flatMap leavesOf, l.key ≠ nl.key := by
    intro l hlm
    have hml := wfl0_mem_leaf hlpre hlm
    have := hpre _ hml
    rw [hnlkey]
    exact ne_of_lt this
  cases post with
  | nil =>
    rw [List.append_nil] at heq
    have hpreleaf2 : ∀ l ∈ n.children.flatMap leavesOf, l.key ≠ nl.key := by
      rw [heq]; exact hpreleaf
    refine ⟨⟨okey (.leaf nl), n.depth, n.children ++ [.leaf nl]⟩, ?_, ?_, rfl, ?_, by simp, ?_⟩
    · rw [insertNode, if_neg (by omega), hins]
      rfl
    · have hjoin : WFL 0 lo (n.children ++ [.leaf nl]) := by
        apply wfl_join
        · exact hl
        · rw [preLo_eq_some hne]
          refine .cons 0 _ _ _ (.leaf _ nl ?_) (.nil 0 _)
          rw [loLt_some, hnlkey]
          obtain ⟨y, hymem, hyeq⟩ := okeyLast_mem hne
          rw [hyeq]
          have hymem2 : y ∈ pre := by rw [← heq]; exact hymem
          exact hpre y hymem2
      have hshape : WF 1 lo (.inner (okeyLast (n.children ++ [.leaf nl])) 1
          (n.children ++ [.leaf nl])) :=
        .inner lo 0 _ (by simp) hjoin (by simp; omega) (by omega)
      have hmk2 : okeyLast (n.children ++ [.leaf nl]) = okey (.leaf nl) :=
        okeyLast_concat _ _
      show WF 1 lo (.inner (okey (.leaf nl)) n.depth (n.children ++ [.leaf nl]))
      rw [hdep, ← hmk2]
      exact hshape
    · show okey (.leaf nl) = max (okey (ofInner n)) key
      have hltk : okey (ofInner n) < key := by
        show n.maxKey < key
        rw [hmk]
        obtain ⟨y, hymem, hyeq⟩ := okeyLast_mem hne
        rw [hyeq]
        have hymem2 : y ∈ pre := by rw [← heq]; exact hymem
        exact hpre y hymem2
      rw [hokc, max_eq_right (le_of_lt hltk)]
    · intro k2
      rw [lookupLeaf_ofInner, lookupLeaf_ofInner]
      dsimp only
      rw [List.flatMap_append]
      have hsingle : ([BNode.leaf nl].flatMap leavesOf) = [nl] := by
        simp [leavesOf_leaf]
      rw [hsingle]
      have hpw := @find_insert_pointwise (n.children.flatMap leavesOf) [] nl hpreleaf2 k2
      rw [List.append_nil, hnlkey] at hpw
      rw [show (n.children.flatMap leavesOf) ++ [nl]
          = (n.children.flatMap leavesOf) ++ nl :: [] from rfl]
      exact hpw
  | cons p ps =>
    refine ⟨⟨n.maxKey, n.depth, pre ++ .leaf nl :: p :: ps⟩, ?_, ?_, rfl, ?_, ?_, ?_⟩
    · rw [insertNode, if_neg (by omega), hins]
      rfl
    · have hppost : WFL 0 (some (okey (.leaf nl))) (p :: ps) := by
        cases hlpost with
        | cons _ _ _ _ hp hps =>
          obtain ⟨lp, hpeq, _⟩ := WF_zero_inv hp
          subst hpeq
          refine .cons 0 _ _ _ ?_ hps
          refine .leaf _ lp ?_
          rw [loLt_some, hokc]
          have := hposthead (.leaf lp) (by simp)
          simpa using this
      have hjoin : WFL 0 lo (pre ++ .leaf nl :: p :: ps) := by
        apply wfl_join
        · exact hlpre
        · refine .cons 0 _ _ _ (.leaf _ nl ?_) hppost
          rcases hpreE : pre with _ | ⟨q, qs⟩
          · rw [preLo_nil, hnlkey]
            exact hlo
          · rw [← hpreE, preLo_eq_some (by rw [hpreE]; simp)]
            rw [loLt_some, hnlkey]
            obtain ⟨y, hymem, hyeq⟩ := okeyLast_mem
              (by rw [hpreE]; simp : pre ≠ [])
            rw [hyeq]
            exact hpre y hymem
      have hlast2 : okeyLast (pre ++ .leaf nl :: p :: ps) = okeyLast n.children := by
        rw [okeyLast_append_right _ _ (by simp), heq,
          okeyLast_append_right pre (p :: ps) (by simp)]
        exact (okeyLast_cons_cons _ _ _)
      have hlen2 : (pre ++ BNode.leaf nl :: p :: ps).length = n.children.length + 1 := by
        rw [heq]
        simp
        omega
      have hshape : WF 1 lo (.inner (okeyLast (pre ++ .leaf nl :: p :: ps)) 1
          (pre ++ .leaf nl :: p :: ps)) :=
        .inner lo 0 _ (by simp) hjoin (by omega) (by omega)
      show WF 1 lo (.inner n.maxKey n.depth (pre ++ .leaf nl :: p :: ps))
      rw [hdep, hmk, ← hlast2]
      exact hshape
    · show n.maxKey = max (okey (ofInner n)) key
      have hkey_lt : key < n.maxKey := by
        rw [hmk, heq, okeyLast_append_right pre (p :: ps) (by simp)]
        obtain ⟨y, hymem, hyeq⟩ := okeyLast_mem (by simp : (p :: ps) ≠ [])
        rw [hyeq]
        exact hpostall y hymem
      show n.maxKey = max (n.maxKey) key
      rw [max_eq_left (le_of_lt hkey_lt)]
    · show (pre ++ BNode.leaf nl :: p :: ps).length = n.children.length + 1
      rw [heq]
      simp
      omega
    · intro k2
      rw [lookupLeaf_ofInner, lookupLeaf_ofInner]
      dsimp only
      rw [List.flatMap_append, List.flatMap_cons, leavesOf_leaf, List.singleton_append]
      rw [heq, List.flatMap_append]
      have hpw := @find_insert_pointwise (pre.flatMap leavesOf)
        ((p :: ps).flatMap leavesOf) nl hpreleaf k2
      rw [hnlkey] at hpw
      exact hpw

end HistProto

namespace HistProto

theorem set_append_length {α : Type} (pre : List α) (c c2 : α) (post : List α) :
    (pre ++ c :: post).set pre.length c2 = pre ++ c2 :: post := by
  simp [List.set_append]

theorem get?_decomp {α : Type} {l : List α} {i : Nat} {a : α} (h : l.get? i = some a) :
    l = l.take i ++ a :: l.drop (i + 1) ∧ (l.take i).length = i := by
  have hlen : i < l.length := by
    by_contra hcon
    rw [List.get?_eq_none.2 (by omega)] at h
    cases h
  have hget : l[i] = a := by
    have := List.get?_eq_get hlen
    rw [this] at h
    simpa using h
  constructor
  · conv_lhs => rw [← List.take_append_drop i l]
    rw [List.drop_eq_getElem_cons hlen, hget]
  · simp [List.length_take]
    omega

theorem splitNode_spec {d0 : Nat} {lo : Option Bytes} (n : Inner)
    (hl : WFL d0 lo n.children) (hmk : n.maxKey = okeyLast n.children)
    (hdep : n.depth = d0 + 1)
    (hlen2 : 2 ≤ n.children.length)
    (hlen16 : n.children.length ≤ leaf_node.MAX_CHILDREN) :
    WF (d0 + 1) lo (ofInner (splitNode n).1)
    ∧ WF (d0 + 1) (some (okey (ofInner (splitNode n).1))) (ofInner (splitNode n).2)
    ∧ (splitNode n).1.depth = n.depth ∧ (splitNode n).2.depth = n.depth
    ∧ okey (ofInner (splitNode n).2) = okey (ofInner n)
    ∧ leavesOf (ofInner (splitNode n).1) ++ leavesOf (ofInner (splitNode n).2)
        = n.children.flatMap leavesOf
    ∧ (splitNode n).1.children.length = n.children.length / 2
    ∧ (splitNode n).2.children.length = n.children.length - n.children.length / 2 := by
  have htd := List.take_append_drop (n.children.length / 2) n.children
  have hltake : (n.children.take (n.children.length / 2)).length = n.children.length / 2 := by
    simp [List.length_take]
    omega
  have hldrop : (n.children.drop (n.children.length / 2)).length
      = n.children.length - n.children.length / 2 := by
    simp [List.length_drop]
  have htne : n.children.take (n.children.length / 2) ≠ [] := by
    intro hcon
    rw [hcon] at hltake
    simp at hltake
    omega
  have hdne : n.children.drop (n.children.length / 2) ≠ [] := by
    intro hcon
    rw [hcon] at hldrop
    simp at hldrop
    omega
  obtain ⟨hltk, hldk⟩ := wfl_split2 (n.children.take (n.children.length / 2))
    (by rw [htd]; exact hl)
  rw [preLo_eq_some htne] at hldk
  have hlast : okeyLast (n.children.drop (n.children.length / 2)) = okeyLast n.children := by
    conv_rhs => rw [← htd]
    rw [okeyLast_append_right _ _ hdne]
  have hwleft : WF (d0 + 1) lo (ofInner (splitNode n).1) := by
    show WF (d0 + 1) lo (.inner (okeyLast (n.children.take (n.children.length / 2))) n.depth
      (n.children.take (n.children.length / 2)))
    rw [hdep]
    exact .inner lo d0 _ htne hltk (by omega) (fun _ => by omega)
  refine ⟨hwleft, ?_, rfl, rfl, ?_, ?_, hltake, hldrop⟩
  · show WF (d0 + 1) (some (okeyLast (n.children.take (n.children.length / 2))))
      (.inner (okeyLast (n.children.drop (n.children.length / 2))) n.depth
        (n.children.drop (n.children.length / 2)))
    rw [hdep]
    exact .inner _ d0 _ hdne hldk (by omega) (fun _ => by omega)
  · show okeyLast (n.children.drop (n.children.length / 2)) = n.maxKey
    rw [hlast, hmk]
  · have h1 : leavesOf (ofInner (splitNode n).1)
        = (n.children.take (n.children.length / 2)).flatMap leavesOf :=
      leavesOf_inner _ _ _
    have h2 : leavesOf (ofInner (splitNode n).2)
        = (n.children.drop (n.children.length / 2)).flatMap leavesOf :=
      leavesOf_inner _ _ _
    rw [h1, h2, ← List.flatMap_append, htd]

theorem insert_sibling_spec {d0 : Nat} {lo : Option Bytes} {n : Inner}
    (pre post : List BNode) (cold : BNode) (lft rgt : Inner)
    (heq : n.children = pre ++ cold :: post)
    (hl : WFL d0 lo n.children)
    (hmk : n.maxKey = okeyLast n.children)
    (hlen : n.children.length < leaf_node.MAX_CHILDREN)
    (hwl : WF d0 (preLo lo pre) (ofInner lft))
    (hwr : WF d0 (some (okey (ofInner lft))) (ofInner rgt))
    (hok : okey (ofInner rgt) = okey cold) :
    ∃ n2, insertNode (withChild n pre.length (ofInner lft)) (ofInner rgt) = .ok n2
      ∧ n2.children = pre ++ ofInner lft :: ofInner rgt :: post
      ∧ n2.maxKey = n.maxKey
      ∧ n2.depth = n.depth
      ∧ WFL d0 lo n2.children
      ∧ n2.children.length = n.children.length + 1 := by
  obtain ⟨hlpre, hwcold, hlpost⟩ := wfl_split pre cold post (heq ▸ hl)
  have hlr : okey (ofInner lft) < okey (ofInner rgt) := by
    have := ((wf_keys hwr).2 _ (wf_okey_mem hwr)).1
    exact this _ rfl
  have hpre_lt : ∀ x ∈ pre, okey x < okey (ofInner rgt) := by
    intro x hx
    have hxlast : okey x ≤ okeyLast pre := by
      have hxm : okey x ∈ pre.flatMap keysOf := by
        rw [List.mem_flatMap]
        obtain ⟨lo2, hwx⟩ := wfl_mem_wf hlpre x hx
        exact ⟨x, hx, wf_okey_mem hwx⟩
      exact ((wfl_keys hlpre).2 _ hxm).2
    have hpne : pre ≠ [] := by
      intro hcon
      rw [hcon] at hx
      simp at hx
    have hcold_gt : okeyLast pre < okey cold := by
      have := ((wf_keys hwcold).2 _ (wf_okey_mem hwcold)).1
      rw [preLo_eq_some hpne] at this
      exact this _ rfl
    rw [hok]
    exact lt_of_le_of_lt hxlast hcold_gt
  have hset : (withChild n pre.length (ofInner lft)).children
      = pre ++ ofInner lft :: post := by
    show (n.children.set pre.length (ofInner lft)) = pre ++ ofInner lft :: post
    rw [heq, set_append_length]
  have hpre2 : ∀ x ∈ pre ++ [ofInner lft], okey x < okey (ofInner rgt) := by
    intro x hx
    rcases List.mem_append.1 hx with hx | hx
    · exact hpre_lt x hx
    · simp at hx
      rw [hx]
      exact hlr
  have hpost2 : ∀ p ∈ post.head?, okey (ofInner rgt) < okey p := by
    intro p hp
    cases post with
    | nil => simp at hp
    | cons q qs =>
      simp at hp
      rw [← hp, hok]
      exact wfl_okey_gt hlpost q (by simp) _ rfl
  have hins := insLoop_exact (pre ++ [ofInner lft]) post hpre2 hpost2
  simp only [List.append_assoc, List.singleton_append] at hins
  have hchain : WFL d0 lo (pre ++ ofInner lft :: ofInner rgt :: post) := by
    apply wfl_join
    · exact hlpre
    · refine .cons d0 _ _ _ hwl (.cons d0 _ _ _ hwr ?_)
      rw [hok]
      exact hlpost
  have hplen : (pre ++ ofInner lft :: post).length = n.children.length := by
    rw [heq]
    simp
  cases post with
  | nil =>
    refine ⟨⟨okey (ofInner rgt), n.depth, pre ++ [ofInner lft, ofInner rgt]⟩,
      ?_, rfl, ?_, rfl, ?_, ?_⟩
    · rw [insertNode, hset]
      rw [if_neg (by rw [hplen]; omega)]
      rw [hins]
      simp only [List.append_assoc]
      rfl
    · show okey (ofInner rgt) = n.maxKey
      rw [hok, hmk, heq, okeyLast_concat]
    · exact hchain
    · show (pre ++ [ofInner lft, ofInner rgt]).length = n.children.length + 1
      rw [heq]
      simp
  | cons q qs =>
    refine ⟨⟨n.maxKey, n.depth, pre ++ ofInner lft :: ofInner rgt :: q :: qs⟩,
      ?_, rfl, rfl, rfl, hchain, ?_⟩
    · rw [insertNode, hset]
      rw [if_neg (by rw [hplen]; omega)]
      rw [hins]
      rfl
    · show (pre ++ ofInner lft :: ofInner rgt :: q :: qs).length = n.children.length + 1
      rw [heq]
      simp
      omega

end HistProto

namespace HistProto

theorem find_replace_pointwise {preL postL : List Leaf} {ol nl2 : Leaf}
    (hkey : nl2.key = ol.key) (hpre : ∀ l ∈ preL, l.key ≠ ol.key) (k2 : Bytes) :
    (preL ++ nl2 :: postL).find? (fun l => l.key = k2)
      = if k2 = ol.key then some nl2
        else (preL ++ ol :: postL).find? (fun l => l.key = k2) := by
  rw [List.find?_append, List.find?_append]
  rcases hfp : preL.find? (fun l => decide (l.key = k2)) with _ | x
  · rw [hfp]
    by_cases hk : k2 = ol.key
    · rw [if_pos hk, find_leaf_cons_pos (hkey.trans hk.symm)]
      rfl
    · rw [if_neg hk, find_leaf_cons_neg (fun he => hk ((hkey ▸ he : ol.key = k2)).symm),
        find_leaf_cons_neg (fun he => hk he.symm)]
  · have hxmem := List.mem_of_find?_eq_some hfp
    have hxkey : x.key = k2 := by simpa using List.find?_some hfp
    by_cases hk : k2 = ol.key
    · exact absurd (hxkey.trans hk) (hpre x hxmem)
    · rw [if_neg hk, hfp]
      simp

theorem okeyLast_replace (pre post : List BNode) {a b : BNode} (h : okey a = okey b) :
    okeyLast (pre ++ a :: post) = okeyLast (pre ++ b :: post) := by
  cases post with
  | nil =>
    rw [show pre ++ [a] = pre ++ [a] from rfl, okeyLast_concat, okeyLast_concat]
    exact h
  | cons q qs =>
    rw [okeyLast_append_right _ _ (by simp), okeyLast_append_right _ _ (by simp),
      okeyLast_cons_cons, okeyLast_cons_cons]

theorem replace_leaf_spec {lo : Option Bytes} {n : Inner} {i : Nat} {l : Leaf} (l2 : Leaf)
    (hl : WFL 0 lo n.children) (hmk : n.maxKey = okeyLast n.children)
    (_hne : n.children ≠ []) (hdep : n.depth = 1)
    (hsz : n.children.length ≤ leaf_node.MAX_CHILDREN)
    (hget : n.children.get? i = some (.leaf l))
    (hkey : l2.key = l.key) :
    WF 1 lo (ofInner (withChild n i (.leaf l2)))
    ∧ (withChild n i (.leaf l2)).depth = n.depth
    ∧ okey (ofInner (withChild n i (.leaf l2))) = okey (ofInner n)
    ∧ lookupLeaf (ofInner n) l.key = some l
    ∧ (∀ k2, lookupLeaf (ofInner (withChild n i (.leaf l2))) k2 =
        if k2 = l.key then some l2 else lookupLeaf (ofInner n) k2) := by
  obtain ⟨hdecomp, hlen_take⟩ := get?_decomp hget
  set pre := n.children.take i with hpre_def
  set post := n.children.drop (i + 1) with hpost_def
  obtain ⟨hlpre, hwold, hlpost⟩ := wfl_split pre (.leaf l) post (hdecomp ▸ hl)
  have hlok : loLt (preLo lo pre) l.key := (WF_leaf_inv hwold).2
  have hset : (withChild n i (.leaf l2)).children = pre ++ .leaf l2 :: post := by
    show n.children.set i (.leaf l2) = pre ++ .leaf l2 :: post
    conv_lhs => rw [hdecomp, ← hlen_take]
    exact set_append_length pre _ _ post
  have hok2 : okey (.leaf l2) = okey (.leaf l) := hkey
  have hchain : WFL 0 lo (pre ++ .leaf l2 :: post) := by
    apply wfl_join
    · exact hlpre
    · refine .cons 0 _ _ _ (.leaf _ l2 (by rw [hkey]; exact hlok)) ?_
      show WFL 0 (some (okey (.leaf l2))) post
      rw [hok2]
      exact hlpost
  have hlast : okeyLast (pre ++ .leaf l2 :: post) = okeyLast n.children := by
    rw [okeyLast_replace pre post hok2, ← hdecomp]
  have hlen2 : (pre ++ .leaf l2 :: post).length = n.children.length := by
    conv_rhs => rw [hdecomp]
    simp
  have hpreleaf : ∀ lf ∈ pre.flatMap leavesOf, lf.key ≠ l.key := by
    intro lf hlf
    have hml := wfl0_mem_leaf hlpre hlf
    have hxlast : okey (.leaf lf) ≤ okeyLast pre := by
      have hxm : okey (.leaf lf) ∈ pre.flatMap keysOf := by
        rw [List.mem_flatMap]
        obtain ⟨lo2, hwx⟩ := wfl_mem_wf hlpre _ hml
        exact ⟨_, hml, wf_okey_mem hwx⟩
      exact ((wfl_keys hlpre).2 _ hxm).2
    have hpne : pre ≠ [] := by
      intro hcon
      rw [hcon] at hml
      simp at hml
    have hlt : okeyLast pre < l.key := by
      rw [preLo_eq_some hpne] at hlok
      exact hlok _ rfl
    exact ne_of_lt (lt_of_le_of_lt hxlast hlt)
  have hleaves_old : n.children.flatMap leavesOf
      = pre.flatMap leavesOf ++ l :: post.flatMap leavesOf := by
    conv_lhs => rw [hdecomp]
    rw [List.flatMap_append, List.flatMap_cons, leavesOf_leaf, List.singleton_append]
  have hleaves_new : (pre ++ BNode.leaf l2 :: post).flatMap leavesOf
      = pre.flatMap leavesOf ++ l2 :: post.flatMap leavesOf := by
    rw [List.flatMap_append, List.flatMap_cons, leavesOf_leaf, List.singleton_append]
  refine ⟨?_, rfl, rfl, ?_, ?_⟩
  · have hshape : WF 1 lo (.inner (okeyLast (pre ++ .leaf l2 :: post)) 1
        (pre ++ .leaf l2 :: post)) :=
      .inner lo 0 _ (by simp) hchain (by omega) (by omega)
    show WF 1 lo (.inner n.maxKey n.depth ((withChild n i (.leaf l2)).children))
    rw [hset, hdep, hmk, ← hlast]
    exact hshape
  · rw [lookupLeaf_ofInner, hleaves_old]
    have := @find_insert_pointwise (pre.flatMap leavesOf)
      (post.flatMap leavesOf) l hpreleaf l.key
    rw [if_pos rfl] at this
    exact this
  · intro k2
    rw [lookupLeaf_ofInner, lookupLeaf_ofInner, hset, hleaves_new, hleaves_old]
    exact find_replace_pointwise hkey hpreleaf k2

end HistProto

namespace HistProto

theorem findIdx?_some_decomp {α : Type} (p : α → Bool) : ∀ (l : List α) (j : Nat),
    l.findIdx? p = some j →
    ∃ x, l.get? j = some x ∧ p x = true ∧ ∀ y ∈ l.take j, p y = false := by
  intro l
  induction l with
  | nil =>
    intro j hj
    rw [List.findIdx?_nil] at hj
    cases hj
  | cons a as ih =>
    intro j hj
    have hcons : (a :: as).findIdx? p
        = if p a then some 0 else (as.findIdx? p).map (· + 1) := by
      simp [List.findIdx?_cons]
    rw [hcons] at hj
    by_cases hpa : p a
    · rw [if_pos hpa] at hj
      cases hj
      exact ⟨a, rfl, hpa, by simp⟩
    · rw [if_neg hpa] at hj
      rcases hmap : as.findIdx? p with _ | j2
      · rw [hmap] at hj
        cases hj
      · rw [hmap] at hj
        cases hj
        obtain ⟨x, hget, hpx, htake⟩ := ih j2 hmap
        refine ⟨x, hget, hpx, ?_⟩
        intro y hy
        rw [List.take_succ_cons] at hy
        rcases List.mem_cons.1 hy with hy | hy
        · rw [hy]
          exact eq_false_of_ne_true hpa
        · exact htake y hy

theorem flat_keys_lt {d0 : Nat} {lo : Option Bytes} {cs : List BNode} (h : WFL d0 lo cs)
    {key : Bytes} (hlt : ∀ x ∈ cs, okey x < key) :
    ∀ l ∈ cs.flatMap leavesOf, l.key < key := by
  intro l hl
  rw [List.mem_flatMap] at hl
  obtain ⟨x, hx, hlx⟩ := hl
  obtain ⟨lo2, hwx⟩ := wfl_mem_wf h x hx
  have hkm : l.key ∈ keysOf x := by
    rw [keysOf, List.mem_map]
    exact ⟨l, hlx, rfl⟩
  exact lt_of_le_of_lt ((wf_keys hwx).2 _ hkm).2 (hlt x hx)

theorem flat_keys_gt {d0 : Nat} {b : Bytes} {cs : List BNode} (h : WFL d0 (some b) cs) :
    ∀ l ∈ cs.flatMap leavesOf, b < l.key := by
  intro l hl
  rw [List.mem_flatMap] at hl
  obtain ⟨x, hx, hlx⟩ := hl
  have hkm : l.key ∈ cs.flatMap keysOf := by
    rw [List.mem_flatMap]
    refine ⟨x, hx, ?_⟩
    rw [keysOf, List.mem_map]
    exact ⟨l, hlx, rfl⟩
  exact ((wfl_keys h).2 _ hkm).1 _ rfl

theorem find_concat_none {preL midL postL : List Leaf} {key : Bytes}
    (hpre : ∀ l ∈ preL, l.key ≠ key)
    (hmid : midL.find? (fun l => l.key = key) = none)
    (hpost : ∀ l ∈ postL, l.key ≠ key) :
    (preL ++ (midL ++ postL)).find? (fun l => l.key = key) = none := by
  rw [List.find?_append, List.find?_append, hmid]
  have h1 : preL.find? (fun l => decide (l.key = key)) = none := by
    rw [List.find?_eq_none]
    intro l hl
    simpa using hpre l hl
  have h2 : postL.find? (fun l => decide (l.key = key)) = none := by
    rw [List.find?_eq_none]
    intro l hl
    simpa using hpost l hl
  rw [h1, h2]
  rfl

theorem find_concat_pointwise {preL midL midL2 postL : List Leaf} {key : Bytes} {l0 : Leaf}
    (hpre : ∀ l ∈ preL, l.key ≠ key)
    (hpw : ∀ k2, midL2.find? (fun l => l.key = k2)
        = if k2 = key then some l0 else midL.find? (fun l => l.key = k2)) :
    ∀ k2, (preL ++ (midL2 ++ postL)).find? (fun l => l.key = k2)
      = if k2 = key then some l0
        else (preL ++ (midL ++ postL)).find? (fun l => l.key = k2) := by
  intro k2
  rw [List.find?_append, List.find?_append, List.find?_append, hpw k2]
  by_cases hk : k2 = key
  · rw [if_pos hk, if_pos hk]
    have h1 : preL.find? (fun l => decide (l.key = k2)) = none := by
      rw [List.find?_eq_none]
      intro l hl
      rw [hk]
      simpa using hpre l hl
    rw [h1]
    rfl
  · rw [if_neg hk, if_neg hk, List.find?_append]

theorem okeyLast_two (pre post : List BNode) {a b c : BNode} (h : okey b = okey c) :
    okeyLast (pre ++ a :: b :: post) = okeyLast (pre ++ c :: post) := by
  cases post with
  | nil =>
    rw [show pre ++ a :: b :: ([] : List BNode) = (pre ++ [a]) ++ [b] by simp,
      okeyLast_concat, show pre ++ [c] = pre ++ [c] from rfl, okeyLast_concat]
    exact h
  | cons q qs =>
    rw [okeyLast_append_right _ (a :: b :: q :: qs) (by simp),
      okeyLast_append_right _ (c :: q :: qs) (by simp),
      okeyLast_cons_cons, okeyLast_cons_cons, okeyLast_cons_cons]

end HistProto

namespace HistProto

theorem putGo_succ_deep {df : Nat} {n : Inner} {key : Bytes} {vb : Option Bytes}
    {delete : Bool} {tx : Int} {idx : Nat} {mk2 : Bytes} {dep2 : Nat} {kids2 : List BNode}
    (hdeep : 1 < n.depth) (hne : ¬n.children.isEmpty = true)
    (hidx : childIdx n key = idx)
    (hget : n.children.get? idx = some (.inner mk2 dep2 kids2)) :
    putGo (df + 1) n key vb delete tx
      = Except.bind (putGo df { maxKey := mk2, depth := dep2, children := kids2 }
          key vb delete tx)
        (fun res => match res with
          | .replaced c2 => .ok (.replaced (withChild n idx (ofInner c2)))
          | .noop => .ok .noop
          | .inserted c2 grow =>
            if grow ∧ (withChild n idx (ofInner c2)).maxKey < key then
              .ok (.inserted { withChild n idx (ofInner c2) with maxKey := key } true)
            else .ok (.inserted (withChild n idx (ofInner c2)) false)
          | .splitDone c2 => .ok (.splitDone (withChild n idx (ofInner c2)))
          | .splitting lft rgt =>
            match insertNode (withChild n idx (ofInner lft)) (ofInner rgt) with
            | .error e => .error e
            | .ok n1 =>
              if leaf_node.MAX_CHILDREN ≤ n1.children.length then
                .ok (.splitting (splitNode n1).1 (splitNode n1).2)
              else .ok (.splitDone n1)) := by
  rw [putGo, if_pos hdeep, if_neg hne, hidx, hget]
  rfl

theorem putGo_empty (df : Nat) (n : Inner) (hch : n.children = []) (hdp : n.depth = 1)
    (key : Bytes) (vb : Option Bytes) (delete : Bool) (tx : Int) :
    putGo (df + 1) n key vb delete tx
      = if delete then .ok .noop
        else .ok (.inserted
          { maxKey := key, depth := 1,
            children := [.leaf (mkLeaf key vb tx leaf_node.PERSIST_HISTORY [] 0 0 0)] }
          true) := by
  cases n with
  | mk mk0 dep ch =>
    simp only at hch hdp
    subst hch hdp
    cases delete <;> rfl

end HistProto

namespace HistProto

theorem find_concat_some {preL midL postL : List Leaf} {key : Bytes} {l0 : Leaf}
    (hpre : ∀ l ∈ preL, l.key ≠ key)
    (hmid : midL.find? (fun l => l.key = key) = some l0) :
    (preL ++ (midL ++ postL)).find? (fun l => l.key = key) = some l0 := by
  rw [List.find?_append, List.find?_append, hmid]
  have h1 : preL.find? (fun l => decide (l.key = key)) = none := by
    rw [List.find?_eq_none]
    intro l hl
    simpa using hpre l hl
  rw [h1]
  rfl

theorem replace_child_wf {d0 : Nat} {lo : Option Bytes} {n : Inner} {idx : Nat}
    {cold cnew : BNode}
    (hl : WFL d0 lo n.children) (hmk : n.maxKey = okeyLast n.children)
    (hdep : n.depth = d0 + 1)
    (hsz : n.children.length ≤ leaf_node.MAX_CHILDREN)
    (hsz2 : 1 ≤ d0 → n.children.length + 1 ≤ leaf_node.MAX_CHILDREN)
    (hget : n.children.get? idx = some cold)
    (hwnew : WF d0 (preLo lo (n.children.take idx)) cnew)
    (hok : okey cnew = okey cold) :
    WF (d0 + 1) lo (ofInner (withChild n idx cnew))
    ∧ (withChild n idx cnew).children.flatMap leavesOf
        = (n.children.take idx).flatMap leavesOf
          ++ (leavesOf cnew ++ (n.children.drop (idx + 1)).flatMap leavesOf) := by
  obtain ⟨hdecomp, hlen_take⟩ := get?_decomp hget
  set pre := n.children.take idx with hpreD
  set post := n.children.drop (idx + 1) with hpostD
  obtain ⟨hlpre, hwold, hlpost⟩ := wfl_split pre cold post (hdecomp ▸ hl)
  have hset : (withChild n idx cnew).children = pre ++ cnew :: post := by
    show n.children.set idx cnew = pre ++ cnew :: post
    conv_lhs => rw [hdecomp, ← hlen_take]
    exact set_append_length pre cold cnew post
  have hchain : WFL d0 lo (pre ++ cnew :: post) := by
    apply wfl_join
    · exact hlpre
    · refine .cons d0 _ _ _ hwnew ?_
      rw [hok]
      exact hlpost
  have hlast : okeyLast (pre ++ cnew :: post) = okeyLast n.children := by
    rw [okeyLast_replace pre post hok, ← hdecomp]
  have hlen2 : (pre ++ cnew :: post).length = n.children.length := by
    conv_rhs => rw [hdecomp]
    simp
  constructor
  · have hshape : WF (d0 + 1) lo (.inner (okeyLast (pre ++ cnew :: post)) (d0 + 1)
        (pre ++ cnew :: post)) :=
      .inner lo d0 _ (by simp) hchain (by omega) (fun h => by have := hsz2 h; omega)
    show WF (d0 + 1) lo (.inner n.maxKey n.depth ((withChild n idx cnew).children))
    rw [hset, hdep, hmk, ← hlast]
    exact hshape
  · rw [hset, List.flatMap_append, List.flatMap_cons]

end HistProto

namespace HistProto

theorem leavesOf_ofInner (n : Inner) :
    leavesOf (ofInner n) = n.children.flatMap leavesOf :=
  leavesOf_inner n.maxKey n.depth n.children

theorem putGo_spec : ∀ (dfuel : Nat) {d : Nat} {lo : Option Bytes} (n : Inner)
    (key : Bytes) (vb : Option Bytes) (delete : Bool) (tx : Int),
    WF d lo (ofInner n) → loLt lo key → d ≤ dfuel →
    ∃ r, putGo dfuel n key vb delete tx = .ok r
      ∧ PutResOK d lo n key vb delete tx r := by
  intro dfuel
  induction dfuel with
  | zero =>
    intro d lo n key vb delete tx hwf hlo hd
    obtain ⟨_, _, d0, hd0, _⟩ := WF_inner_inv hwf
    omega
  | succ df ih =>
    intro d lo n key vb delete tx hwf hlo hd
    obtain ⟨hmk, hdepd, d0, hd0, hne, hl, hsz, hsz2⟩ := WF_inner_inv hwf
    have h16 : leaf_node.MAX_CHILDREN = 16 := rfl
    by_cases hdeep : 1 < n.depth
    · have hb : ¬n.children.isEmpty = true := by simpa using hne
      have hd0pos : 1 ≤ d0 := by omega
      have hlenpos : 0 < n.children.length := List.length_pos.2 hne
      obtain ⟨idx, cold, hidx, hget, hprelt, hreg⟩ :
          ∃ idx cold, childIdx n key = idx ∧ n.children.get? idx = some cold
            ∧ (∀ y ∈ n.children.take idx, okey y < key)
            ∧ (key ≤ okey cold ∨ (n.children.drop (idx + 1) = [] ∧ okey cold < key)) := by
        rcases hfi : n.children.findIdx? (fun c => decide (key ≤ okey c)) with _ | j
        · have hall := List.findIdx?_eq_none_iff.1 hfi
          have hget0 : n.children.get? (n.children.length - 1)
              = some (n.children.get ⟨n.children.length - 1, by omega⟩) := by
            rw [List.get?_eq_get (by omega)]
          refine ⟨n.children.length - 1, _, ?_, hget0, ?_, Or.inr ⟨?_, ?_⟩⟩
          · rw [childIdx, hfi]
            rfl
          · intro y hy
            exact not_le.1 (of_decide_eq_false (hall y (List.take_subset _ _ hy)))
          · have hle : n.children.length - 1 + 1 = n.children.length := by omega
            rw [hle, List.drop_length]
          · exact not_le.1 (of_decide_eq_false (hall _ (List.get?_mem hget0)))
        · obtain ⟨x, hgetx, hpx, htake⟩ := findIdx?_some_decomp _ _ _ hfi
          refine ⟨j, x, ?_, hgetx, ?_, Or.inl (of_decide_eq_true hpx)⟩
          · rw [childIdx, hfi]
            rfl
          · intro y hy
            exact not_le.1 (of_decide_eq_false (htake y hy))
      obtain ⟨hdecomp, hlen_take⟩ := get?_decomp hget
      set pre := n.children.take idx with hpreD
      set post := n.children.drop (idx + 1) with hpostD
      obtain ⟨hlpre, hwcold, hlpost⟩ := wfl_split pre cold post (hdecomp ▸ hl)
      have hlo2 : loLt (preLo lo pre) key := by
        by_cases hpe : pre = []
        · rw [hpe, preLo_nil]
          exact hlo
        · rw [preLo_eq_some hpe, loLt_some]
          obtain ⟨y, hym, hyeq⟩ := okeyLast_mem hpe
          rw [hyeq]
          exact hprelt y hym
      have hpreleafNE : ∀ lf ∈ pre.flatMap leavesOf, lf.key ≠ key :=
        fun lf hlm => ne_of_lt (flat_keys_lt hlpre hprelt lf hlm)
      have hpostNE : ∀ lf ∈ post.flatMap leavesOf, lf.key ≠ key := by
        rcases hreg with hle | ⟨hpe, _⟩
        · intro lf hlm
          exact ne_of_gt (lt_of_le_of_lt hle (flat_keys_gt hlpost lf hlm))
        · rw [hpe]
          intro lf hlm
          simp at hlm
      have hcold_le : okey cold ≤ okeyLast n.children := by
        have hcm : cold ∈ n.children := by
          rw [hdecomp]
          simp
        have hkm : okey cold ∈ n.children.flatMap keysOf := by
          rw [List.mem_flatMap]
          exact ⟨cold, hcm, wf_okey_mem hwcold⟩
        exact ((wfl_keys hl).2 _ hkm).2
      obtain ⟨d1, hd1⟩ : ∃ d1, d0 = d1 + 1 := ⟨d0 - 1, by omega⟩
      rw [hd1] at hwcold
      obtain ⟨kids2, hcoldeq, hne2, hl2, hsza, hszb⟩ := WF_pos_inv hwcold
      subst hcoldeq
      rw [← hd1] at hwcold
      obtain ⟨r2, hr2eq, hr2ok⟩ := ih ⟨okeyLast kids2, d1 + 1, kids2⟩ key vb delete tx
        (show WF (d1 + 1) (preLo lo pre)
          (ofInner ⟨okeyLast kids2, d1 + 1, kids2⟩) from hd1 ▸ hwcold)
        hlo2 (by omega)
      have hleavesN : n.children.flatMap leavesOf
          = pre.flatMap leavesOf
            ++ (leavesOf (BNode.inner (okeyLast kids2) (d1 + 1) kids2)
              ++ post.flatMap leavesOf) := by
        conv_lhs => rw [hdecomp]
        rw [List.flatMap_append, List.flatMap_cons]
      cases r2 with
      | replaced c2 =>
        obtain ⟨hwc2, hdc2, hoc2, l, hlookc, hpwc⟩ := hr2ok
        rw [← hd1] at hwc2
        have hrcw := replace_child_wf hl hmk (by omega) hsz hsz2 hget hwc2 hoc2
        refine ⟨.replaced (withChild n idx (ofInner c2)), ?_, ?_, rfl, rfl, ?_⟩
        · rw [putGo_succ_deep hdeep hb hidx hget, hr2eq]
          rfl
        · rw [hd0]
          exact hrcw.1
        · refine ⟨l, ?_, ?_⟩
          · rw [lookupLeaf_ofInner, hleavesN]
            exact find_concat_some hpreleafNE hlookc
          · intro k2
            have hpw2 := @find_concat_pointwise (pre.flatMap leavesOf)
              (leavesOf (BNode.inner (okeyLast kids2) (d1 + 1) kids2))
              (leavesOf (ofInner c2)) (post.flatMap leavesOf) key
              ((add_record l 0 vb tx delete).1) hpreleafNE hpwc k2
            rw [lookupLeaf_ofInner, hrcw.2, hpw2]
            by_cases hk : k2 = key
            · rw [if_pos hk, if_pos hk]
            · rw [if_neg hk, if_neg hk, lookupLeaf_ofInner, hleavesN]
      | noop =>
        obtain ⟨hdel, hmissC⟩ := hr2ok
        refine ⟨.noop, ?_, hdel, ?_⟩
        · rw [putGo_succ_deep hdeep hb hidx hget, hr2eq]
          rfl
        · rw [lookupLeaf_ofInner, hleavesN]
          exact find_concat_none hpreleafNE hmissC hpostNE
      | inserted c2 grow =>
        obtain ⟨hdel, hmissC, hwc2, hdc2, hokc2, hgrowF, hpwc⟩ := hr2ok
        rw [← hd1] at hwc2
        have hlookN : lookupLeaf (ofInner n) key = none := by
          rw [lookupLeaf_ofInner, hleavesN]
          exact find_concat_none hpreleafNE hmissC hpostNE
        rcases hreg with hle | ⟨hpe, hgt⟩
        · have hoksame : okey (ofInner c2)
              = okey (BNode.inner (okeyLast kids2) (d1 + 1) kids2) := by
            rw [hokc2]
            exact max_eq_left hle
          have hrcw := replace_child_wf hl hmk (by omega) hsz hsz2 hget hwc2 hoksame
          have hkmax : key ≤ n.maxKey := by
            rw [hmk]
            exact le_trans hle hcold_le
          have hnotlt : ¬ (withChild n idx (ofInner c2)).maxKey < key :=
            not_lt.2 hkmax
          refine ⟨.inserted (withChild n idx (ofInner c2)) false, ?_, hdel, hlookN,
            ?_, rfl, ?_, fun _ => rfl, ?_⟩
          · rw [putGo_succ_deep hdeep hb hidx hget, hr2eq]
            show (if grow = true ∧ (withChild n idx (ofInner c2)).maxKey < key then
                Except.ok (PutRes.inserted
                  { withChild n idx (ofInner c2) with maxKey := key } true)
              else Except.ok (PutRes.inserted (withChild n idx (ofInner c2)) false))
              = Except.ok (PutRes.inserted (withChild n idx (ofInner c2)) false)
            rw [if_neg (fun h => hnotlt h.2)]
          · rw [hd0]
            exact hrcw.1
          · exact (max_eq_left (show key ≤ okey (ofInner n) from hkmax)).symm
          · intro k2
            have hpw2 := @find_concat_pointwise (pre.flatMap leavesOf)
              (leavesOf (BNode.inner (okeyLast kids2) (d1 + 1) kids2))
              (leavesOf (ofInner c2)) (post.flatMap leavesOf) key
              (mkLeaf key vb tx leaf_node.PERSIST_HISTORY [] 0 0 0) hpreleafNE hpwc k2
            rw [lookupLeaf_ofInner, hrcw.2, hpw2]
            by_cases hk : k2 = key
            · rw [if_pos hk, if_pos hk]
            · rw [if_neg hk, if_neg hk, lookupLeaf_ofInner, hleavesN]
        · have hgt2 : okeyLast kids2 < key := hgt
          have hokey2 : okey (ofInner c2) = key := by
            rw [hokc2]
            exact max_eq_right (le_of_lt hgt2)
          cases grow with
          | false =>
            exact absurd (hokey2.symm.trans (hgrowF rfl)) (ne_of_gt hgt2)
          | true =>
            have hmaxlt : (withChild n idx (ofInner c2)).maxKey < key := by
              show n.maxKey < key
              rw [hmk, hdecomp, hpe, okeyLast_concat]
              exact hgt2
            have hch2 : (withChild n idx (ofInner c2)).children = pre ++ [ofInner c2] := by
              show n.children.set idx (ofInner c2) = pre ++ [ofInner c2]
              conv_lhs => rw [hdecomp, hpe, ← hlen_take]
              exact set_append_length pre _ (ofInner c2) []
            have hkeyl : okeyLast (pre ++ [ofInner c2]) = key := by
              rw [okeyLast_concat]
              exact hokey2
            have hlen2 : (pre ++ [ofInner c2]).length = n.children.length := by
              rw [hdecomp, hpe]
              simp
            have hchain2 : WFL d0 lo (pre ++ [ofInner c2]) := by
              apply wfl_join
              · exact hlpre
              · exact .cons d0 _ _ _ hwc2 (.nil d0 _)
            have hwfN2 : WF d lo (ofInner
                { withChild n idx (ofInner c2) with maxKey := key }) := by
              show WF d lo (.inner key n.depth ((withChild n idx (ofInner c2)).children))
              rw [hch2, hdepd, hd0, ← hkeyl]
              exact .inner lo d0 _ (by simp) hchain2 (by omega)
                (fun h => by have := hsz2 h; omega)
            have hleavesNE : n.children.flatMap leavesOf
                = pre.flatMap leavesOf
                  ++ (leavesOf (BNode.inner (okeyLast kids2) (d1 + 1) kids2)
                    ++ ([] : List Leaf)) := by
              rw [hleavesN, hpe, List.flatMap_nil]
            refine ⟨.inserted { withChild n idx (ofInner c2) with maxKey := key } true,
              ?_, hdel, hlookN, hwfN2, rfl, ?_, ?_, ?_⟩
            · rw [putGo_succ_deep hdeep hb hidx hget, hr2eq]
              show (if true = true ∧ (withChild n idx (ofInner c2)).maxKey < key then
                  Except.ok (PutRes.inserted
                    { withChild n idx (ofInner c2) with maxKey := key } true)
                else Except.ok (PutRes.inserted (withChild n idx (ofInner c2)) false))
                = Except.ok (PutRes.inserted
                    { withChild n idx (ofInner c2) with maxKey := key } true)
              rw [if_pos ⟨rfl, hmaxlt⟩]
            · show key = max (okey (ofInner n)) key
              have hlt : okey (ofInner n) < key := by
                show n.maxKey < key
                rw [hmk, hdecomp, hpe, okeyLast_concat]
                exact hgt2
              rw [max_eq_right (le_of_lt hlt)]
            · intro h
              exact absurd h (by decide)
            · intro k2
              have hflat2 : ({ withChild n idx (ofInner c2) with maxKey := key
                  } : Inner).children.flatMap leavesOf
                  = pre.flatMap leavesOf ++ (leavesOf (ofInner c2) ++ ([] : List Leaf)) := by
                show (withChild n idx (ofInner c2)).children.flatMap leavesOf = _
                rw [hch2, List.flatMap_append, List.flatMap_cons, List.flatMap_nil]
              have hpw2 := @find_concat_pointwise (pre.flatMap leavesOf)
                (leavesOf (BNode.inner (okeyLast kids2) (d1 + 1) kids2))
                (leavesOf (ofInner c2)) ([] : List Leaf) key
                (mkLeaf key vb tx leaf_node.PERSIST_HISTORY [] 0 0 0) hpreleafNE hpwc k2
              rw [lookupLeaf_ofInner, hflat2, hpw2]
              by_cases hk : k2 = key
              · rw [if_pos hk, if_pos hk]
              · rw [if_neg hk, if_neg hk, lookupLeaf_ofInner, hleavesNE]
      | splitDone c2 =>
        obtain ⟨hdel, hmissC, hwc2, hdc2, hokc2, hleavesC⟩ := hr2ok
        rw [← hd1] at hwc2
        have hrcw := replace_child_wf hl hmk (by omega) hsz hsz2 hget hwc2 hokc2
        refine ⟨.splitDone (withChild n idx (ofInner c2)), ?_, hdel, ?_, ?_, rfl, rfl, ?_⟩
        · rw [putGo_succ_deep hdeep hb hidx hget, hr2eq]
          rfl
        · rw [lookupLeaf_ofInner, hleavesN]
          exact find_concat_none hpreleafNE hmissC hpostNE
        · rw [hd0]
          exact hrcw.1
        · have hC2 : leavesOf (ofInner c2)
              = leavesOf (BNode.inner (okeyLast kids2) (d1 + 1) kids2) := hleavesC
          show leavesOf (.inner n.maxKey n.depth ((withChild n idx (ofInner c2)).children))
            = leavesOf (ofInner n)
          rw [leavesOf_inner, hrcw.2, hC2, leavesOf_ofInner n, hleavesN]
      | splitting lft rgt =>
        obtain ⟨hdel, hmissC, hwlft, hwrgt, hdlft, hdrgt, hokr, hlr⟩ := hr2ok
        rw [← hd1] at hwlft hwrgt
        have hlookN : lookupLeaf (ofInner n) key = none := by
          rw [lookupLeaf_ofInner, hleavesN]
          exact find_concat_none hpreleafNE hmissC hpostNE
        have hlen15 : n.children.length < leaf_node.MAX_CHILDREN := by
          have := hsz2 hd0pos
          omega
        obtain ⟨n1, hins, hch1, hmk1, hdep1, hwl1, hlen1⟩ :=
          insert_sibling_spec pre post (BNode.inner (okeyLast kids2) (d1 + 1) kids2)
            lft rgt hdecomp hl hmk hlen15 hwlft hwrgt hokr
        rw [hlen_take] at hins
        have hmkd1 : okeyLast n1.children = okeyLast n.children := by
          rw [hch1, hdecomp]
          exact okeyLast_two pre post hokr
        have hmkX : n1.maxKey = okeyLast n1.children := by
          rw [hmk1, hmk, hmkd1]
        by_cases hfull : leaf_node.MAX_CHILDREN ≤ n1.children.length
        · obtain ⟨hwP1, hwP2, hdp1, hdp2, hokP2, hleavesP, _, _⟩ :=
            splitNode_spec n1 hwl1 hmkX (by rw [hdep1, hdepd, hd0]) (by omega) (by omega)
          refine ⟨.splitting (splitNode n1).1 (splitNode n1).2, ?_, hdel, hlookN,
            ?_, ?_, ?_, ?_, ?_, ?_⟩
          · rw [putGo_succ_deep hdeep hb hidx hget, hr2eq]
            show (match insertNode (withChild n idx (ofInner lft)) (ofInner rgt) with
              | Except.error e => Except.error e
              | Except.ok n1 =>
                if leaf_node.MAX_CHILDREN ≤ n1.children.length then
                  Except.ok (PutRes.splitting (splitNode n1).1 (splitNode n1).2)
                else Except.ok (PutRes.splitDone n1))
              = Except.ok (PutRes.splitting (splitNode n1).1 (splitNode n1).2)
            rw [hins]
            show (if leaf_node.MAX_CHILDREN ≤ n1.children.length then
                Except.ok (PutRes.splitting (splitNode n1).1 (splitNode n1).2)
              else Except.ok (PutRes.splitDone n1))
              = Except.ok (PutRes.splitting (splitNode n1).1 (splitNode n1).2)
            rw [if_pos hfull]
          · rw [hd0]
            exact hwP1
          · rw [hd0]
            exact hwP2
          · rw [hdp1, hdep1]
          · rw [hdp2, hdep1]
          · show okey (ofInner (splitNode n1).2) = okey (ofInner n)
            rw [hokP2]
            exact hmk1
          · have hlr2 : leavesOf (ofInner lft) ++ leavesOf (ofInner rgt)
                = leavesOf (BNode.inner (okeyLast kids2) (d1 + 1) kids2) := hlr
            rw [hleavesP, hch1, List.flatMap_append, List.flatMap_cons, List.flatMap_cons,
              leavesOf_ofInner n, hleavesN, ← hlr2]
            simp only [List.append_assoc]
        · have hn1wf : WF d lo (ofInner n1) := by
            show WF d lo (.inner n1.maxKey n1.depth n1.children)
            rw [hmkX, hdep1, hdepd, hd0]
            exact .inner lo d0 _ (by rw [hch1]; simp) hwl1 (by omega) (fun h => by omega)
          refine ⟨.splitDone n1, ?_, hdel, hlookN, hn1wf, hdep1, ?_, ?_⟩
          · rw [putGo_succ_deep hdeep hb hidx hget, hr2eq]
            show (match insertNode (withChild n idx (ofInner lft)) (ofInner rgt) with
              | Except.error e => Except.error e
              | Except.ok n1 =>
                if leaf_node.MAX_CHILDREN ≤ n1.children.length then
                  Except.ok (PutRes.splitting (splitNode n1).1 (splitNode n1).2)
                else Except.ok (PutRes.splitDone n1))
              = Except.ok (PutRes.splitDone n1)
            rw [hins]
            show (if leaf_node.MAX_CHILDREN ≤ n1.children.length then
                Except.ok (PutRes.splitting (splitNode n1).1 (splitNode n1).2)
              else Except.ok (PutRes.splitDone n1))
              = Except.ok (PutRes.splitDone n1)
            rw [if_neg hfull]
          · exact hmk1
          · have hlr2 : leavesOf (ofInner lft) ++ leavesOf (ofInner rgt)
                = leavesOf (BNode.inner (okeyLast kids2) (d1 + 1) kids2) := hlr
            rw [leavesOf_ofInner n1, leavesOf_ofInner n, hch1, List.flatMap_append,
              List.flatMap_cons, List.flatMap_cons, hleavesN, ← hlr2]
            simp only [List.append_assoc]
    · have hd0z : d0 = 0 := by omega
      have hdE : d = 1 := by omega
      have hdep1' : n.depth = 1 := by omega
      rw [hd0z] at hl
      rcases hfind : searchLeafIdx? key n.children with _ | i
      · have hmiss := (searchLeafIdx_spec key hl).2 hfind
        cases delete with
        | true =>
          refine ⟨.noop, ?_, rfl, ?_⟩
          · rw [putGo, if_neg hdeep, hfind]
            rfl
          · rw [lookupLeaf_ofInner]
            exact hmiss
        | false =>
          by_cases hfull : leaf_node.MAX_CHILDREN ≤ n.children.length
          · have hinsErr : insertNode n
                (.leaf (mkLeaf key vb tx leaf_node.PERSIST_HISTORY [] 0 0 0))
                = .error .nodeFull := by
              rw [insertNode, if_pos hfull]
            obtain ⟨hwP1, hwP2, hdp1, hdp2, hokP2, hleavesP, _, _⟩ :=
              splitNode_spec n hl hmk hdep1' (by omega) (by omega)
            refine ⟨.splitting (splitNode n).1 (splitNode n).2, ?_, rfl, ?_,
              ?_, ?_, hdp1, hdp2, hokP2, ?_⟩
            · rw [putGo, if_neg hdeep, hfind]
              show (match insertNode n
                  (.leaf (mkLeaf key vb tx leaf_node.PERSIST_HISTORY [] 0 0 0)) with
                | Except.ok n2 => Except.ok (PutRes.inserted n2 true)
                | Except.error TErr.nodeFull =>
                  if n.children.length < leaf_node.MAX_CHILDREN then
                    Except.ok (PutRes.splitDone n)
                  else Except.ok (PutRes.splitting (splitNode n).1 (splitNode n).2)
                | Except.error e => Except.error e)
                = Except.ok (PutRes.splitting (splitNode n).1 (splitNode n).2)
              rw [hinsErr]
              show (if n.children.length < leaf_node.MAX_CHILDREN then
                  Except.ok (PutRes.splitDone n)
                else Except.ok (PutRes.splitting (splitNode n).1 (splitNode n).2))
                = Except.ok (PutRes.splitting (splitNode n).1 (splitNode n).2)
              rw [if_neg (not_lt.2 hfull)]
            · rw [lookupLeaf_ofInner]
              exact hmiss
            · rw [hdE]
              exact hwP1
            · rw [hdE]
              exact hwP2
            · rw [hleavesP, leavesOf_ofInner]
          · obtain ⟨n2, hins, hwf2, hdep2, hok2, _, hpw2⟩ :=
              insert_new_leaf_spec key vb tx hl hmk hne hdep1' (not_le.1 hfull) hlo hmiss
            refine ⟨.inserted n2 true, ?_, rfl, ?_, ?_, hdep2, hok2,
              ?_, hpw2⟩
            · rw [putGo, if_neg hdeep, hfind]
              show (match insertNode n
                  (.leaf (mkLeaf key vb tx leaf_node.PERSIST_HISTORY [] 0 0 0)) with
                | Except.ok n2 => Except.ok (PutRes.inserted n2 true)
                | Except.error TErr.nodeFull =>
                  if n.children.length < leaf_node.MAX_CHILDREN then
                    Except.ok (PutRes.splitDone n)
                  else Except.ok (PutRes.splitting (splitNode n).1 (splitNode n).2)
                | Except.error e => Except.error e)
                = Except.ok (PutRes.inserted n2 true)
              rw [hins]
            · rw [lookupLeaf_ofInner]
              exact hmiss
            · rw [hdE]
              exact hwf2
            · intro h
              exact absurd h (by decide)
      · obtain ⟨l, hgetl, hlkey, hfound⟩ := (searchLeafIdx_spec key hl).1 i hfind
        have hleafAt : leafAt? n.children i = some l := by
          rw [leafAt?, hgetl]
        obtain ⟨hwf2, hdep2, hok2, hlook2, hpw2⟩ :=
          replace_leaf_spec (add_record l 0 vb tx delete).1 hl hmk hne hdep1' hsz hgetl rfl
        refine ⟨.replaced (withChild n i (.leaf (add_record l 0 vb tx delete).1)),
          ?_, ?_, hdep2, hok2, l, ?_, ?_⟩
        · rw [putGo, if_neg hdeep, hfind]
          show (match leafAt? n.children i with
            | some l =>
              Except.ok (PutRes.replaced
                (withChild n i (.leaf (add_record l 0 vb tx delete).1)))
            | none => Except.error TErr.castErr)
            = Except.ok (PutRes.replaced
                (withChild n i (.leaf (add_record l 0 vb tx delete).1)))
          rw [hleafAt]
        · rw [hdE]
          exact hwf2
        · rw [← hlkey]
          exact hlook2
        · intro k2
          rw [← hlkey]
          exact hpw2 k2

end HistProto

namespace HistProto

theorem lookupVal_eq (t : Tree) (k : Bytes) :
    lookupVal t k = (lookupLeaf (ofInner t.head) k).map (fun l => l.value) := rfl

theorem tree_WFT_of_WF {h2 : Inner} {d : Nat} (tx : Int)
    (hw2 : WF d none (ofInner h2)) (hd2 : h2.depth = d) :
    WFT { head := h2, tx := tx } := by
  refine Or.inr ?_
  show WF h2.depth none (ofInner h2)
  rw [hd2]
  exact hw2

theorem newRoot_WFT {d : Nat} {lft rgt : Inner} (tx : Int)
    (hwl : WF d none (ofInner lft)) (hwr : WF d (some (okey (ofInner lft))) (ofInner rgt))
    (hdl : lft.depth = d) :
    WFT { head := { maxKey := rgt.maxKey, depth := lft.depth + 1,
                    children := [ofInner lft, ofInner rgt] },
          tx := tx }
    ∧ leavesOf (ofInner ({ maxKey := rgt.maxKey, depth := lft.depth + 1,
                           children := [ofInner lft, ofInner rgt] } : Inner))
      = leavesOf (ofInner lft) ++ leavesOf (ofInner rgt) := by
  constructor
  · refine Or.inr ?_
    show WF (lft.depth + 1) none
      (.inner rgt.maxKey (lft.depth + 1) [ofInner lft, ofInner rgt])
    have hmk2 : rgt.maxKey = okeyLast [ofInner lft, ofInner rgt] := rfl
    rw [hmk2, hdl]
    exact .inner none d [ofInner lft, ofInner rgt] (by simp)
      (.cons d none _ _ hwl (.cons d _ _ _ hwr (.nil d _)))
      (by show 2 ≤ 16; omega) (fun _ => by show 2 + 1 ≤ 16; omega)
  · rw [leavesOf_ofInner]
    show leavesOf (ofInner lft) ++ (leavesOf (ofInner rgt) ++ []) = _
    rw [List.append_nil]

theorem putFuel_ok_spec : ∀ (rfuel : Nat) (t : Tree) (key : Bytes) (vb : Option Bytes)
    (delete : Bool) {t2 : Tree},
    WFT t → putFuel rfuel t key vb delete = .ok t2 →
    WFT t2
    ∧ ((delete = true ∧ lookupVal t key = none ∧ t2 = t)
       ∨ ((delete = true → lookupVal t key ≠ none)
          ∧ t2.tx = t.tx + 1
          ∧ ∀ k2, lookupVal t2 k2 =
              if k2 = key then some (if delete then none else vb)
              else lookupVal t k2)) := by
  intro rfuel
  induction rfuel with
  | zero =>
    intro t key vb delete t2 hwft heq
    rw [putFuel] at heq
    cases heq
  | succ rf ih =>
    intro t key vb delete t2 hwft heq
    rcases hwft with ⟨hch, hdp⟩ | hwf
    · cases delete with
      | true =>
        rw [putFuel, putGo_empty t.head.depth t.head hch hdp] at heq
        have heq3 : Except.ok t = Except.ok t2 := heq
        injection heq3 with h3
        subst h3
        have hnone : lookupVal t key = none := by
          rw [lookupVal_eq, lookupLeaf_ofInner, hch]
          rfl
        exact ⟨Or.inl ⟨hch, hdp⟩, Or.inl ⟨rfl, hnone, rfl⟩⟩
      | false =>
        rw [putFuel, putGo_empty t.head.depth t.head hch hdp] at heq
        have heq3 : Except.ok ({ head := { maxKey := key, depth := 1,
                                           children := [.leaf (mkLeaf key vb t.tx
                                             leaf_node.PERSIST_HISTORY [] 0 0 0)] },
                                 tx := t.tx + 1 } : Tree) = Except.ok t2 := heq
        injection heq3 with h3
        subst h3
        refine ⟨?_, Or.inr ⟨fun h => absurd h (by decide), rfl, ?_⟩⟩
        · refine Or.inr ?_
          show WF (0 + 1) none
            (.inner (okeyLast [BNode.leaf (mkLeaf key vb t.tx leaf_node.PERSIST_HISTORY [] 0 0 0)])
              (0 + 1) [BNode.leaf (mkLeaf key vb t.tx leaf_node.PERSIST_HISTORY [] 0 0 0)])
          exact .inner none 0 [BNode.leaf (mkLeaf key vb t.tx leaf_node.PERSIST_HISTORY [] 0 0 0)]
            (by simp)
            (.cons 0 none _ _ (.leaf none _ (loLt_none _)) (.nil 0 _))
            (by show 1 ≤ 16; omega) (fun h => by omega)
        · intro k2
          rw [lookupVal_eq, lookupVal_eq, lookupLeaf_ofInner, lookupLeaf_ofInner, hch]
          show (([BNode.leaf (mkLeaf key vb t.tx leaf_node.PERSIST_HISTORY [] 0 0 0)].flatMap
              leavesOf).find? (fun l => decide (l.key = k2))).map (fun l => l.value)
            = if k2 = key
              then some (if false = true then none else vb)
              else ((([] : List BNode).flatMap leavesOf).find?
                (fun l => decide (l.key = k2))).map (fun l => l.value)
          rw [List.flatMap_cons, List.flatMap_nil, leavesOf_leaf, List.append_nil]
          by_cases hk : k2 = key
          · rw [if_pos hk, hk, find_leaf_cons_pos
              (show (mkLeaf key vb t.tx leaf_node.PERSIST_HISTORY [] 0 0 0).key = key
                from rfl)]
            rfl
          · rw [if_neg hk, find_leaf_cons_neg
              (show ¬ (mkLeaf key vb t.tx leaf_node.PERSIST_HISTORY [] 0 0 0).key = k2
                from fun he => hk he.symm)]
    · obtain ⟨r, hreq, hrok⟩ := putGo_spec (t.head.depth + 1) t.head key vb delete t.tx
        hwf (loLt_none key) (by omega)
      rw [putFuel, hreq] at heq
      cases r with
      | replaced h2 =>
        obtain ⟨hw2, hd2, hok2, l, hlook, hpw⟩ := hrok
        have heq3 : Except.ok ({ head := h2, tx := t.tx + 1 } : Tree) = Except.ok t2 := heq
        injection heq3 with h3
        subst h3
        refine ⟨tree_WFT_of_WF _ hw2 hd2, Or.inr ⟨?_, rfl, ?_⟩⟩
        · intro _
          rw [lookupVal_eq, hlook]
          simp
        · intro k2
          rw [lookupVal_eq, lookupVal_eq]
          show (lookupLeaf (ofInner h2) k2).map (fun l => l.value) = _
          rw [hpw k2]
          by_cases hk : k2 = key
          · rw [if_pos hk, if_pos hk]
            rfl
          · rw [if_neg hk, if_neg hk]
      | noop =>
        obtain ⟨hdel, hlookN⟩ := hrok
        have heq3 : Except.ok t = Except.ok t2 := heq
        injection heq3 with h3
        subst h3
        refine ⟨Or.inr hwf, Or.inl ⟨hdel, ?_, rfl⟩⟩
        rw [lookupVal_eq, hlookN]
        rfl
      | inserted h2 g =>
        obtain ⟨hdel, hlookN, hw2, hd2, hok2, hgF, hpw⟩ := hrok
        subst hdel
        have heq3 : Except.ok ({ head := h2, tx := t.tx + 1 } : Tree) = Except.ok t2 := heq
        injection heq3 with h3
        subst h3
        refine ⟨tree_WFT_of_WF _ hw2 hd2, Or.inr ⟨fun h => absurd h (by decide), rfl, ?_⟩⟩
        intro k2
        rw [lookupVal_eq, lookupVal_eq]
        show (lookupLeaf (ofInner h2) k2).map (fun l => l.value) = _
        rw [hpw k2]
        by_cases hk : k2 = key
        · rw [if_pos hk, if_pos hk]
          rfl
        · rw [if_neg hk, if_neg hk]
      | splitDone h2 =>
        obtain ⟨hdel, hlookN, hw2, hd2, hok2, hlv⟩ := hrok
        subst hdel
        have heq2 : putFuel rf { head := h2, tx := t.tx } key vb false = .ok t2 := heq
        have hpres : ∀ k2, lookupVal { head := h2, tx := t.tx } k2 = lookupVal t k2 := by
          intro k2
          rw [lookupVal_eq, lookupVal_eq]
          show (lookupLeaf (ofInner h2) k2).map (fun l => l.value) = _
          rw [lookupLeaf, lookupLeaf, hlv]
        obtain ⟨hW, hdisj⟩ := ih { head := h2, tx := t.tx } key vb false
          (tree_WFT_of_WF _ hw2 hd2) heq2
        rcases hdisj with ⟨hfalse, _⟩ | ⟨_, htx, hpw⟩
        · exact absurd hfalse (by decide)
        refine ⟨hW, Or.inr ⟨fun h => absurd h (by decide), htx, ?_⟩⟩
        intro k2
        rw [hpw k2]
        by_cases hk : k2 = key
        · rw [if_pos hk, if_pos hk]
        · rw [if_neg hk, if_neg hk, hpres k2]
      | splitting lft rgt =>
        obtain ⟨hdel, hlookN, hwl, hwr, hdl, hdr, hokr, hlv⟩ := hrok
        subst hdel
        have heq2 : putFuel rf { head := { maxKey := rgt.maxKey, depth := lft.depth + 1,
                                           children := [ofInner lft, ofInner rgt] },
                                 tx := t.tx } key vb false = .ok t2 := heq
        obtain ⟨hWR, hlvR⟩ := newRoot_WFT t.tx hwl hwr hdl
        have hpres : ∀ k2, lookupVal { head := { maxKey := rgt.maxKey,
                                                 depth := lft.depth + 1,
                                                 children := [ofInner lft, ofInner rgt] },
                                       tx := t.tx } k2
            = lookupVal t k2 := by
          intro k2
          rw [lookupVal_eq, lookupVal_eq]
          show (lookupLeaf (ofInner { maxKey := rgt.maxKey,
                                      depth := lft.depth + 1,
                                      children := [ofInner lft, ofInner rgt] })
            k2).map (fun l => l.value) = _
          rw [lookupLeaf, lookupLeaf, hlvR, hlv]
        obtain ⟨hW, hdisj⟩ := ih { head := { maxKey := rgt.maxKey,
                                             depth := lft.depth + 1,
                                             children := [ofInner lft, ofInner rgt] },
                                   tx := t.tx } key vb false hWR heq2
        rcases hdisj with ⟨hfalse, _⟩ | ⟨_, htx, hpw⟩
        · exact absurd hfalse (by decide)
        refine ⟨hW, Or.inr ⟨fun h => absurd h (by decide), htx, ?_⟩⟩
        intro k2
        rw [hpw k2]
        by_cases hk : k2 = key
        · rw [if_pos hk, if_pos hk]
        · rw [if_neg hk, if_neg hk, hpres k2]

theorem putFuel_no_nodeFull : ∀ (rfuel : Nat) (t : Tree) (key : Bytes)
    (vb : Option Bytes) (delete : Bool), WFT t →
    putFuel rfuel t key vb delete ≠ .error .nodeFull := by
  intro rfuel
  induction rfuel with
  | zero =>
    intro t key vb delete hwft heq
    rw [putFuel] at heq
    injection heq with h
    exact TErr.noConfusion h
  | succ rf ih =>
    intro t key vb delete hwft heq
    rcases hwft with ⟨hch, hdp⟩ | hwf
    · rw [putFuel, putGo_empty t.head.depth t.head hch hdp] at heq
      cases delete with
      | true => exact nomatch heq
      | false => exact nomatch heq
    · obtain ⟨r, hreq, hrok⟩ := putGo_spec (t.head.depth + 1) t.head key vb delete t.tx
        hwf (loLt_none key) (by omega)
      rw [putFuel, hreq] at heq
      cases r with
      | replaced h2 => exact nomatch heq
      | noop => exact nomatch heq
      | inserted h2 g => exact nomatch heq
      | splitDone h2 =>
        obtain ⟨hdel, hlookN, hw2, hd2, hok2, hlv⟩ := hrok
        have heq2 : putFuel rf { head := h2, tx := t.tx } key vb false
            = .error .nodeFull := heq
        exact ih { head := h2, tx := t.tx } key vb false (tree_WFT_of_WF _ hw2 hd2) heq2
      | splitting lft rgt =>
        obtain ⟨hdel, hlookN, hwl, hwr, hdl, hdr, hokr, hlv⟩ := hrok
        have heq2 : putFuel rf { head := { maxKey := rgt.maxKey,
                                           depth := lft.depth + 1,
                                           children := [ofInner lft, ofInner rgt] },
                                 tx := t.tx } key vb false = .error .nodeFull := heq
        exact ih _ key vb false (newRoot_WFT t.tx hwl hwr hdl).1 heq2

end HistProto

namespace HistProto

theorem runOps_spec : ∀ (ops : List Op) (fuel : Nat) (t : Tree) (seen : List Bytes)
    {t2 : Tree},
    WFT t →
    (∀ k, lookupVal t k ≠ none ↔ k ∈ seen) →
    runOps fuel t ops = .ok t2 →
    WFT t2
    ∧ t2.tx = t.tx + countChanging seen ops
    ∧ ∀ k, lookupVal t2 k = ops.foldl (stepSpec k) (lookupVal t k) := by
  intro ops
  induction ops with
  | nil =>
    intro fuel t seen t2 hwft hseen heq
    have heq3 : Except.ok t = Except.ok t2 := heq
    injection heq3 with h3
    subst h3
    refine ⟨hwft, ?_, fun k => rfl⟩
    show t.tx = t.tx + 0
    omega
  | cons op rest ihr =>
    intro fuel t seen t2 hwft hseen heq
    rcases happ : applyOp fuel t op with e | t1
    · rw [runOps, happ] at heq
      exact nomatch heq
    · rw [runOps, happ] at heq
      have heq2 : runOps fuel t1 rest = .ok t2 := heq
      cases op with
      | put k v =>
        have happ2 : putFuel fuel t k (some v) false = .ok t1 := happ
        obtain ⟨hW1, hdisj⟩ := putFuel_ok_spec fuel t k (some v) false hwft happ2
        rcases hdisj with ⟨hfalse, _⟩ | ⟨_, htx1, hpw1⟩
        · exact absurd hfalse (by decide)
        have hseen1 : ∀ k2, lookupVal t1 k2 ≠ none ↔ k2 ∈ k :: seen := by
          intro k2
          rw [hpw1 k2]
          by_cases hk : k2 = k
          · rw [if_pos hk]
            simp [hk]
          · rw [if_neg hk, List.mem_cons]
            constructor
            · intro h
              exact Or.inr ((hseen k2).1 h)
            · intro h
              rcases h with h | h
              · exact absurd h hk
              · exact (hseen k2).2 h
        obtain ⟨hW2, htx2, hpw2⟩ := ihr fuel t1 (k :: seen) hW1 hseen1 heq2
        refine ⟨hW2, ?_, ?_⟩
        · rw [htx2, htx1,
            show countChanging seen (Op.put k v :: rest)
              = 1 + countChanging (k :: seen) rest from rfl]
          omega
        · intro k2
          have hacc : lookupVal t1 k2 = stepSpec k2 (lookupVal t k2) (Op.put k v) := by
            rw [hpw1 k2]
            show _ = if k = k2 then some (some v) else lookupVal t k2
            by_cases hk : k2 = k
            · rw [if_pos hk, if_pos hk.symm]
              rfl
            · rw [if_neg hk, if_neg (fun he => hk he.symm)]
          rw [hpw2 k2, hacc, List.foldl_cons]
      | del k =>
        have happ2 : putFuel fuel t k none true = .ok t1 := happ
        obtain ⟨hW1, hdisj⟩ := putFuel_ok_spec fuel t k none true hwft happ2
        rcases hdisj with ⟨_, hmiss, ht1⟩ | ⟨hne1, htx1, hpw1⟩
        · rw [ht1] at heq2
          have hkn : k ∉ seen := fun hmem => ((hseen k).2 hmem) hmiss
          obtain ⟨hW2, htx2, hpw2⟩ := ihr fuel t seen hwft hseen heq2
          refine ⟨hW2, ?_, ?_⟩
          · rw [htx2,
              show countChanging seen (Op.del k :: rest)
                = (if k ∈ seen then 1 else 0) + countChanging seen rest from rfl,
              if_neg hkn]
            omega
          · intro k2
            have hacc : stepSpec k2 (lookupVal t k2) (Op.del k) = lookupVal t k2 := by
              show (if k = k2 then _ else _) = _
              by_cases hk : k = k2
              · rw [if_pos hk, ← hk, hmiss]
              · rw [if_neg hk]
            rw [hpw2 k2, List.foldl_cons, hacc]
        · have hkp : k ∈ seen := (hseen k).1 (hne1 rfl)
          have hseen1 : ∀ k2, lookupVal t1 k2 ≠ none ↔ k2 ∈ seen := by
            intro k2
            rw [hpw1 k2]
            by_cases hk : k2 = k
            · rw [if_pos hk]
              constructor
              · intro _
                rw [hk]
                exact hkp
              · intro _
                simp
            · rw [if_neg hk]
              exact hseen k2
          obtain ⟨hW2, htx2, hpw2⟩ := ihr fuel t1 seen hW1 hseen1 heq2
          refine ⟨hW2, ?_, ?_⟩
          · rw [htx2, htx1,
              show countChanging seen (Op.del k :: rest)
                = (if k ∈ seen then 1 else 0) + countChanging seen rest from rfl,
              if_pos hkp]
            omega
          · intro k2
            have hacc : lookupVal t1 k2 = stepSpec k2 (lookupVal t k2) (Op.del k) := by
              rw [hpw1 k2]
              show _ = if k = k2 then _ else _
              by_cases hk : k2 = k
              · rw [if_pos hk, if_pos hk.symm]
                rcases hlk : lookupVal t k with _ | x
                · exact absurd hlk (hne1 rfl)
                · rw [hk, hlk]
                  rfl
              · rw [if_neg hk, if_neg (fun he => hk he.symm)]
            rw [hpw2 k2, hacc, List.foldl_cons]

theorem lookupVal_empty (e : Int) (k : Bytes) : lookupVal (emptyTree e) k = none := by
  rw [lookupVal_eq, lookupLeaf_ofInner]
  show ((([] : List BNode).flatMap leavesOf).find?
    (fun l => decide (l.key = k))).map (fun l => l.value) = none
  rw [List.flatMap_nil]
  rfl

theorem seen_empty (e : Int) :
    ∀ k2, lookupVal (emptyTree e) k2 ≠ none ↔ k2 ∈ ([] : List Bytes) := by
  intro k2
  rw [lookupVal_empty]
  simp

theorem getT_lookup {t : Tree} (hwft : WFT t) (k : Bytes) :
    getT t k = .ok ((lookupT t k).bind (fun l => l.value)) := by
  rcases hwft with ⟨hch, hdp⟩ | hwf
  · rw [getT, lookupT]
    have hgo : getGo (t.head.depth + 1) t.head k = .ok none := by
      rw [getGo, if_neg (by omega), hch]
      rfl
    rw [hgo, lookupLeaf_ofInner, hch, List.flatMap_nil]
    rfl
  · rw [getT, lookupT, getGo_spec (t.head.depth + 1) t.head k hwf (by omega)]
    rfl

theorem stepSpec_untouched {k : Bytes} {op : Op} (h : touches k op = false)
    (acc : Option (Option Bytes)) : stepSpec k acc op = acc := by
  cases op with
  | put k2 v =>
    have hne : ¬ k2 = k := of_decide_eq_false h
    show (if k2 = k then _ else acc) = acc
    rw [if_neg hne]
  | del k2 =>
    have hne : ¬ k2 = k := of_decide_eq_false h
    show (if k2 = k then _ else acc) = acc
    rw [if_neg hne]

theorem foldl_untouched {k : Bytes} : ∀ (ops : List Op),
    (∀ op ∈ ops, touches k op = false) →
    ∀ acc, ops.foldl (stepSpec k) acc = acc := by
  intro ops
  induction ops with
  | nil =>
    intro _ acc
    rfl
  | cons op rest ihr =>
    intro h acc
    rw [List.foldl_cons, stepSpec_untouched (h op (by simp))]
    exact ihr (fun o ho => h o (by simp [ho])) acc

theorem specVal_put_suffix (k v : Bytes) (pre post : List Op)
    (hpost : ∀ op ∈ post, touches k op = false) :
    specVal k (pre ++ .put k v :: post) = some (some v) := by
  rw [specVal, List.foldl_append, List.foldl_cons,
    show stepSpec k (pre.foldl (stepSpec k) none) (.put k v) = some (some v) from by
      show (if k = k then _ else _) = _
      rw [if_pos rfl]]
  exact foldl_untouched post hpost _

end HistProto

namespace HistProto

/-- C2: read-your-writes.  For every operation sequence on one tree that
contains a successful put(k, v) not followed by another put or delete of
k, running the sequence from a fresh tree makes get(k) return v, across
any node splits the inserts trigger. -/
theorem C2_theorem (fuel : Nat) (e : Int) (pre post : List Op) (k v : Bytes) (t : Tree)
    (hpost : ∀ op ∈ post, touches k op = false)
    (hrun : runOps fuel (emptyTree e) (pre ++ .put k v :: post) = .ok t) :
    getT t k = .ok (some v) := by
  obtain ⟨hW, htx, hpw⟩ := runOps_spec (pre ++ .put k v :: post) fuel (emptyTree e) []
    (Or.inl ⟨rfl, rfl⟩) (seen_empty e) hrun
  have hlv : lookupVal t k = some (some v) := by
    rw [hpw k, lookupVal_empty]
    exact specVal_put_suffix k v pre post hpost
  rw [getT_lookup hW k]
  rcases hlt : lookupT t k with _ | l
  · have h2 : (lookupT t k).map (fun l => l.value) = some (some v) := hlv
    rw [hlt] at h2
    cases h2
  · have h2 : (lookupT t k).map (fun l => l.value) = some (some v) := hlv
    rw [hlt] at h2
    have h3 : l.value = some v := by
      simpa using h2
    show Except.ok l.value = Except.ok (some v)
    rw [h3]

theorem C2_witness : getT onePutTree keyK = .ok (some val1) :=
  C2_theorem 2 0 [] [] keyK val1 onePutTree (by simp) (by rfl)

/-- C3: monotonic transaction counter.  Running any operation sequence
from a tree with epoch e leaves the counter at e plus the number of
state-changing operations (every put, and every delete whose key is
present), and a delete of an absent key afterwards returns the very same
tree state. -/
theorem C3_theorem (fuel : Nat) (e : Int) (ops : List Op) (t : Tree)
    (hrun : runOps fuel (emptyTree e) ops = .ok t) :
    t.tx = e + countChanging [] ops
    ∧ ∀ k f2, specVal k ops = none → 1 ≤ f2 → putFuel f2 t k none true = .ok t := by
  obtain ⟨hW, htx, hpw⟩ := runOps_spec ops fuel (emptyTree e) []
    (Or.inl ⟨rfl, rfl⟩) (seen_empty e) hrun
  constructor
  · exact htx
  · intro k f2 hspec hf2
    have hlvk : lookupVal t k = none := by
      rw [hpw k, lookupVal_empty]
      exact hspec
    have hlt : lookupLeaf (ofInner t.head) k = none := by
      rcases hlt2 : lookupT t k with _ | l
      · exact hlt2
      · have h2 : (lookupT t k).map (fun l => l.value) = none := hlvk
        rw [hlt2] at h2
        cases h2
    obtain ⟨f3, hf3⟩ : ∃ f3, f2 = f3 + 1 := ⟨f2 - 1, by omega⟩
    subst hf3
    rcases hW with ⟨hch, hdp⟩ | hwf
    · rw [putFuel, putGo_empty t.head.depth t.head hch hdp]
      rfl
    · obtain ⟨r, hreq, hrok⟩ := putGo_spec (t.head.depth + 1) t.head k none true t.tx
        hwf (loLt_none k) (by omega)
      cases r with
      | replaced h2 =>
        obtain ⟨_, _, _, l, hlook, _⟩ := hrok
        rw [hlt] at hlook
        cases hlook
      | noop =>
        rw [putFuel, hreq]
        rfl
      | inserted h2 g => exact absurd hrok.1 (by decide)
      | splitDone h2 => exact absurd hrok.1 (by decide)
      | splitting lft rgt => exact absurd hrok.1 (by decide)

theorem C3_witness :
    c3t.tx = 5 + countChanging [] c3ops ∧ putFuel 1 c3t [9] none true = .ok c3t :=
  ⟨(C3_theorem 2 5 c3ops c3t (by rfl)).1,
   (C3_theorem 2 5 c3ops c3t (by rfl)).2 [9] 1 (by decide) (by omega)⟩

/-- C4: NodeFullError never surfaces.  From any tree state reached by
running public operations from a fresh tree, a further put or delete with
any amount of retry fuel never returns the NodeFull error: the eager
split walk leaves every node with room, so the error is always recovered
internally. -/
theorem C4_theorem (fuel : Nat) (e : Int) (ops : List Op) (t : Tree)
    (hrun : runOps fuel (emptyTree e) ops = .ok t)
    (k : Bytes) (vb : Option Bytes) (d : Bool) (f2 : Nat) :
    putFuel f2 t k vb d ≠ .error .nodeFull := by
  obtain ⟨hW, _, _⟩ := runOps_spec ops fuel (emptyTree e) []
    (Or.inl ⟨rfl, rfl⟩) (seen_empty e) hrun
  exact putFuel_no_nodeFull f2 t k vb d hW

theorem C4_witness : putFuel 1 onePutTree keyK (some val2) false ≠ .error .nodeFull :=
  C4_theorem 2 0 c4ops onePutTree (by rfl) keyK (some val2) false 1

end HistProto
